import Mathlib

/-!
Shallow embedding of the SimpleDB query engine (Rust) and proofs about the
claims of its specification.

Conventions of the embedding:
* Rust `Result<T>` becomes `Except ErrorCode T`; a Rust panic (indexing out of
  bounds, `unwrap` on a failed downcast, `unimplemented!`, `todo!`) is modelled
  as the dedicated error `ErrorCode.rtPanic`.
* Arrow `f64` values are modelled as exact rationals; no theorem below depends
  on floating-point rounding.
* `std::collections::HashMap` iteration order is unspecified; functions that
  iterate over a hash map take the iteration order as an explicit parameter,
  constrained to be a permutation of the insertion (first-seen) order.
-/

namespace SimpleDB

/-- Arrow primitive data types used by the engine (plus the Null type produced
by `new_null_array`). -/
inductive DataType where
  | boolean
  | int64
  | uint64
  | float64
  | utf8
  | nullType
  | decimal (p s : Nat)
deriving DecidableEq, Repr

/-- Arrow `Field`: name, data type, nullability. -/
structure Field where
  name : String
  dataType : DataType
  nullable : Bool
deriving DecidableEq, Repr

/-- `NaiveField` from `logical_plan/schema.rs`: an Arrow field plus an optional
qualifier. -/
structure NaiveField where
  qualifier : Option String
  name : String
  dataType : DataType
  nullable : Bool
deriving DecidableEq, Repr

/-- `NaiveField::qualified_name`. -/
def NaiveField.qualifiedName (f : NaiveField) : String :=
  match f.qualifier with
  | some q => q ++ "." ++ f.name
  | none => f.name

/-- The conversion `impl From<NaiveField> for Field` (drops the qualifier and
uses the plain name). -/
def NaiveField.toField (f : NaiveField) : Field :=
  ⟨f.name, f.dataType, f.nullable⟩

/-- `NaiveSchema` from `logical_plan/schema.rs`. -/
structure NaiveSchema where
  fields : List NaiveField
deriving DecidableEq, Repr

/-- The conversion `impl From<NaiveSchema> for Schema`: a qualified field is
renamed to its qualified name. -/
def NaiveSchema.toSchema (s : NaiveSchema) : List Field :=
  s.fields.map fun f =>
    match f.qualifier with
    | some _ => ⟨f.qualifiedName, f.dataType, f.nullable⟩
    | none => f.toField

/-- `ErrorCode` from `error.rs`; `rtPanic` additionally models Rust panics. -/
inductive ErrorCode where
  | arrowError (msg : String)
  | ioError (msg : String)
  | noSuchField
  | columnNotExists (msg : String)
  | logicalError (msg : String)
  | noSuchTable (msg : String)
  | parserError (msg : String)
  | intervalError (msg : String)
  | planError (msg : String)
  | noMatchFunction (msg : String)
  | notSupported (msg : String)
  | notImplemented
  | others
  | rtPanic (msg : String)
deriving DecidableEq, Repr

instance {ε α : Type} [DecidableEq ε] [DecidableEq α] : DecidableEq (Except ε α)
  | .error x, .error y =>
    if h : x = y then .isTrue (congrArg _ h)
    else .isFalse (fun hc => h (Except.error.inj hc))
  | .error _, .ok _ => .isFalse (fun hc => Except.noConfusion hc)
  | .ok _, .error _ => .isFalse (fun hc => Except.noConfusion hc)
  | .ok x, .ok y =>
    if h : x = y then .isTrue (congrArg _ h)
    else .isFalse (fun hc => h (Except.ok.inj hc))

/-- A single cell value of a typed column (validity is modelled by `Option`
around `CellVal`). -/
inductive CellVal where
  | vBool (b : Bool)
  | vInt (n : Int)
  | vNat (n : Nat)
  | vRat (q : Rat)
  | vStr (s : String)
deriving DecidableEq, Repr

/-- A typed columnar array with per-element validity, covering the closed set
of primitive array kinds of the engine (`nullCol` models `new_null_array` of
the Null data type). -/
inductive ArrayCol where
  | boolean (vals : List (Option Bool))
  | int64 (vals : List (Option Int))
  | uint64 (vals : List (Option Nat))
  | float64 (vals : List (Option Rat))
  | utf8 (vals : List (Option String))
  | nullCol (len : Nat)
deriving DecidableEq, Repr

def ArrayCol.length : ArrayCol → Nat
  | .boolean vs => vs.length
  | .int64 vs => vs.length
  | .uint64 vs => vs.length
  | .float64 vs => vs.length
  | .utf8 vs => vs.length
  | .nullCol n => n

def ArrayCol.dataType : ArrayCol → DataType
  | .boolean _ => .boolean
  | .int64 _ => .int64
  | .uint64 _ => .uint64
  | .float64 _ => .float64
  | .utf8 _ => .utf8
  | .nullCol _ => .nullType

/-- The cells of a column as a list of optional values (none = null). -/
def ArrayCol.entries : ArrayCol → List (Option CellVal)
  | .boolean vs => vs.map (fun v => v.map .vBool)
  | .int64 vs => vs.map (fun v => v.map .vInt)
  | .uint64 vs => vs.map (fun v => v.map .vNat)
  | .float64 vs => vs.map (fun v => v.map .vRat)
  | .utf8 vs => vs.map (fun v => v.map .vStr)
  | .nullCol n => List.replicate n none

/-- Arrow `Array::slice(offset, length)` (view of the range). -/
def ArrayCol.slice (off len : Nat) : ArrayCol → ArrayCol
  | .boolean vs => .boolean ((vs.drop off).take len)
  | .int64 vs => .int64 ((vs.drop off).take len)
  | .uint64 vs => .uint64 ((vs.drop off).take len)
  | .float64 vs => .float64 ((vs.drop off).take len)
  | .utf8 vs => .utf8 ((vs.drop off).take len)
  | .nullCol n => .nullCol (min len (n - off))

/-- Appending two columns of the same kind (used by batch concatenation); a
kind mismatch keeps the left column, a case unreachable for well-typed
batches. -/
def ArrayCol.append : ArrayCol → ArrayCol → ArrayCol
  | .boolean a, .boolean b => .boolean (a ++ b)
  | .int64 a, .int64 b => .int64 (a ++ b)
  | .uint64 a, .uint64 b => .uint64 (a ++ b)
  | .float64 a, .float64 b => .float64 (a ++ b)
  | .utf8 a, .utf8 b => .utf8 (a ++ b)
  | .nullCol a, .nullCol b => .nullCol (a + b)
  | a, _ => a

/-- The empty column of a given data type. -/
def DataType.emptyCol : DataType → ArrayCol
  | .boolean => .boolean []
  | .int64 => .int64 []
  | .uint64 => .uint64 []
  | .float64 => .float64 []
  | .utf8 => .utf8 []
  | .nullType => .nullCol 0
  | .decimal _ _ => .nullCol 0

/-- Arrow `RecordBatch`: a schema together with the columns. -/
structure RecordBatch where
  schema : List Field
  columns : List ArrayCol
deriving DecidableEq, Repr

/-- Arrow `RecordBatch::num_rows` (length of the first column, 0 when there
are no columns). -/
def RecordBatch.numRows (b : RecordBatch) : Nat :=
  match b.columns with
  | [] => 0
  | c :: _ => c.length

/-- Well-formedness of a record batch: at least one column, one column per
field, every column of the type of its field and of the common length. -/
def RecordBatch.wf (b : RecordBatch) : Prop :=
  b.columns ≠ [] ∧
  b.columns.length = b.schema.length ∧
  (∀ c ∈ b.columns, c.length = b.numRows) ∧
  ∀ i : Nat, i < b.columns.length →
    (b.columns.getD i (.nullCol 0)).dataType =
      (b.schema.getD i ⟨"", .nullType, false⟩).dataType

/-- Arrow `RecordBatch::try_new`: validates column count, non-emptiness,
equal lengths and data types against the schema. -/
def RecordBatch.tryNew (schema : List Field) (columns : List ArrayCol) :
    Except ErrorCode RecordBatch :=
  if schema.length ≠ columns.length then
    .error (.arrowError "number of columns must match number of fields")
  else
    match columns with
    | [] => .error (.arrowError "at least one column")
    | c0 :: rest =>
      if rest.any (fun c => c.length ≠ c0.length) then
        .error (.arrowError "all columns must have the same length")
      else if (schema.zip columns).any (fun p => p.2.dataType ≠ p.1.dataType) then
        .error (.arrowError "column types must match schema types")
      else
        .ok ⟨schema, columns⟩

/-- Arrow `RecordBatch::slice(offset, length)`. -/
def RecordBatch.slice (b : RecordBatch) (off len : Nat) : RecordBatch :=
  ⟨b.schema, b.columns.map (ArrayCol.slice off len)⟩

/-- Row `j` of a batch, as one optional cell per column. -/
def RecordBatch.rowAt (b : RecordBatch) (j : Nat) : List (Option CellVal) :=
  b.columns.map fun c => c.entries.getD j none

/-- All rows of a batch, in order. -/
def RecordBatch.rows (b : RecordBatch) : List (List (Option CellVal)) :=
  (List.range b.numRows).map b.rowAt

/-- The concatenated rows of a list of batches. -/
def rowsOf (bs : List RecordBatch) : List (List (Option CellVal)) :=
  bs.flatMap RecordBatch.rows

/-- Total row count of a list of batches. -/
def sumRows (bs : List RecordBatch) : Nat :=
  (bs.map RecordBatch.numRows).sum

/-- `ScalarValue` from `logical_plan/expression.rs` (`f64` modelled
exactly). -/
inductive ScalarValue where
  | null
  | boolean (v : Option Bool)
  | float64 (v : Option Rat)
  | int64 (v : Option Int)
  | uint64 (v : Option Nat)
  | utf8 (v : Option String)
deriving DecidableEq, Repr

/-- `ScalarValue::into_array(size)`: broadcast the scalar to a column (a null
scalar becomes a null array of the corresponding type). -/
def ScalarValue.intoArray (v : ScalarValue) (size : Nat) : ArrayCol :=
  match v with
  | .null => .nullCol size
  | .boolean e => .boolean (List.replicate size e)
  | .float64 e => .float64 (List.replicate size e)
  | .int64 e => .int64 (List.replicate size e)
  | .uint64 e => .uint64 (List.replicate size e)
  | .utf8 e => .utf8 (List.replicate size e)

/-- Modelled from the spec: `ColumnValue` of the missing `datatype.rs` —
either a materialized column or a broadcast scalar tagged with a length. -/
inductive ColumnValue where
  | array (arr : ArrayCol)
  | const (v : ScalarValue) (len : Nat)
deriving DecidableEq, Repr

/-- Modelled from the spec: `ColumnValue::into_array` materializes a broadcast
scalar to an array of its tagged length. -/
def ColumnValue.intoArray : ColumnValue → ArrayCol
  | .array a => a
  | .const v len => v.intoArray len

/-- `Operator` from `logical_plan/expression.rs`. -/
inductive Operator where
  | eq
  | notEq
  | lt
  | ltEq
  | gt
  | gtEq
  | plus
  | minus
  | multiply
  | divide
  | modulos
  | and
  | or
deriving DecidableEq, Repr

/-- Whether the operator is one of the six comparisons. -/
def Operator.isCmp : Operator → Bool
  | .eq | .notEq | .lt | .ltEq | .gt | .gtEq => true
  | _ => false

/-- Comparison result given strict-less and equality tests; defined only for
the six comparison operators (`false` otherwise, unused). -/
def cmpBy (op : Operator) (ltf eqf : Bool) (gtf : Bool) : Bool :=
  match op with
  | .eq => eqf
  | .notEq => !eqf
  | .lt => ltf
  | .ltEq => ltf || eqf
  | .gt => gtf
  | .gtEq => gtf || eqf
  | _ => false

/-- Pointwise combination of two columns with strict null propagation: a null
on either side yields null, otherwise `f` is applied. -/
def zipOptM {α β γ : Type} (f : α → β → Except ErrorCode γ)
    (xs : List (Option α)) (ys : List (Option β)) :
    Except ErrorCode (List (Option γ)) :=
  (xs.zip ys).mapM fun p =>
    match p with
    | (some a, some b) => (f a b).map some
    | _ => pure none

/-- Modelled from the spec: element-wise application of a binary operator to
two columns (the repository file `physical_plan/expression/binary.rs` is not
under `src/`).  Comparisons yield Boolean columns, arithmetic keeps the left
operand type, And/Or are Boolean, and a null input yields a null output.
Integer division or remainder by zero models the Rust panic; float division by
zero (IEEE infinity/NaN) is not modelled and also yields an error. -/
def applyBinOp (op : Operator) : ArrayCol → ArrayCol → Except ErrorCode ArrayCol
  | .int64 xs, .int64 ys =>
    if op.isCmp then
      .boolean <$> zipOptM
        (fun a b => .ok (cmpBy op (decide (a < b)) (decide (a = b)) (decide (b < a)))) xs ys
    else
      match op with
      | .plus => .int64 <$> zipOptM (fun a b => .ok (a + b)) xs ys
      | .minus => .int64 <$> zipOptM (fun a b => .ok (a - b)) xs ys
      | .multiply => .int64 <$> zipOptM (fun a b => .ok (a * b)) xs ys
      | .divide =>
        .int64 <$> zipOptM
          (fun a b =>
            if b = 0 then .error (.rtPanic "division by zero")
            else .ok (Int.tdiv a b)) xs ys
      | .modulos =>
        .int64 <$> zipOptM
          (fun a b =>
            if b = 0 then .error (.rtPanic "remainder by zero")
            else .ok (Int.tmod a b)) xs ys
      | _ => .error (.notSupported "operator not supported for Int64")
  | .uint64 xs, .uint64 ys =>
    if op.isCmp then
      .boolean <$> zipOptM
        (fun a b => .ok (cmpBy op (decide (a < b)) (decide (a = b)) (decide (b < a)))) xs ys
    else .error (.notSupported "operator not supported for UInt64")
  | .float64 xs, .float64 ys =>
    if op.isCmp then
      .boolean <$> zipOptM
        (fun a b => .ok (cmpBy op (decide (a < b)) (decide (a = b)) (decide (b < a)))) xs ys
    else
      match op with
      | .plus => .float64 <$> zipOptM (fun a b => .ok (a + b)) xs ys
      | .minus => .float64 <$> zipOptM (fun a b => .ok (a - b)) xs ys
      | .multiply => .float64 <$> zipOptM (fun a b => .ok (a * b)) xs ys
      | .divide =>
        .float64 <$> zipOptM
          (fun a b =>
            if b = 0 then .error (.rtPanic "float division by zero not modelled")
            else .ok (a / b)) xs ys
      | _ => .error (.notSupported "operator not supported for Float64")
  | .utf8 xs, .utf8 ys =>
    if op.isCmp then
      .boolean <$> zipOptM
        (fun a b => .ok (cmpBy op (decide (a < b)) (decide (a = b)) (decide (b < a)))) xs ys
    else .error (.notSupported "operator not supported for Utf8")
  | .boolean xs, .boolean ys =>
    match op with
    | .eq => .boolean <$> zipOptM (fun a b => .ok (decide (a = b))) xs ys
    | .notEq => .boolean <$> zipOptM (fun a b => .ok (decide (a ≠ b))) xs ys
    | .and => .boolean <$> zipOptM (fun a b => .ok (a && b)) xs ys
    | .or => .boolean <$> zipOptM (fun a b => .ok (a || b)) xs ys
    | _ => .error (.notSupported "operator not supported for Boolean")
  | _, _ => .error (.notSupported "mismatched operand types")

/-- `ColumnExpr` of `physical_plan/expression/column.rs` (fields as used by
`sum.rs`/`avg.rs` and the planner: an optional name and an optional index). -/
structure ColumnExpr where
  name : Option String
  idx : Option Nat
deriving DecidableEq, Repr

/-- Modelled from the spec: evaluation of a column reference (`column.rs` is
not under `src/`): a resolved index returns that column of the batch, an
unresolved reference fails with `ColumnNotExists`. -/
def ColumnExpr.evaluate (e : ColumnExpr) (b : RecordBatch) :
    Except ErrorCode ColumnValue :=
  match e.idx with
  | some i =>
    match b.columns.get? i with
    | some c => .ok (.array c)
    | none => .error (.columnNotExists "column index out of range")
  | none => .error (.columnNotExists "column reference not resolved to an index")

/-- Physical expressions: the closed set of `PhysicalExpr` implementations of
the engine (column reference, literal, binary expression). -/
inductive PhysicalExpr where
  | column (e : ColumnExpr)
  | literal (v : ScalarValue)
  | binary (l : PhysicalExpr) (op : Operator) (r : PhysicalExpr)
deriving DecidableEq, Repr

/-- Evaluation of a physical expression over a batch.  The literal case is
`physical_plan/expression/literal.rs`; the column case follows
`ColumnExpr.evaluate`; the binary case is modelled from the spec (children are
evaluated, materialized, and combined element-wise). -/
def PhysicalExpr.evaluate : PhysicalExpr → RecordBatch → Except ErrorCode ColumnValue
  | .column e, b => e.evaluate b
  | .literal v, b => .ok (.const v b.numRows)
  | .binary l op r, b => do
    let lv ← l.evaluate b
    let rv ← r.evaluate b
    let arr ← applyBinOp op lv.intoArray rv.intoArray
    .ok (.array arr)

/-- Downcast to a Boolean column (`as_any().downcast_ref::<BooleanArray>()
.unwrap()`); failure models the Rust panic. -/
def ArrayCol.asBoolean : ArrayCol → Except ErrorCode (List (Option Bool))
  | .boolean vs => .ok vs
  | _ => .error (.rtPanic "downcast to BooleanArray failed")

/-- `CsvTable` from `datasource/csv.rs`: a schema and the loaded batches. -/
structure CsvTable where
  schema : NaiveSchema
  batches : List RecordBatch
deriving DecidableEq, Repr

/-- `CsvTable::scan` from `datasource/csv.rs`: returns a clone of the stored
batches; the projection argument is bound as `_projection` and ignored. -/
def CsvTable.scan (t : CsvTable) (_projection : Option (List Nat)) :
    Except ErrorCode (List RecordBatch) :=
  .ok t.batches

/-- `NaiveSchema::field_with_unqualified_name`: first field with the given
name, else `PlanError`. -/
def NaiveSchema.fieldWithUnqualifiedName (s : NaiveSchema) (name : String) :
    Except ErrorCode NaiveField :=
  match s.fields.filter (fun f => f.name = name) with
  | [] => .error (.planError ("No field named " ++ name))
  | f :: _ => .ok f

/-- `NaiveSchema::field_with_qualified_name`: first field with the given
qualifier and name, else `PlanError`. -/
def NaiveSchema.fieldWithQualifiedName (s : NaiveSchema)
    (relationName name : String) : Except ErrorCode NaiveField :=
  match s.fields.filter (fun f => f.qualifier = some relationName ∧ f.name = name) with
  | [] => .error (.planError ("No field named " ++ name))
  | f :: _ => .ok f

/-- The `build_array_by_predicate` filter of `physical_plan/selection.rs`: a
valid-true predicate bit emits the value, a valid-false bit skips the row, and
a null predicate bit emits a null row.  `zip` truncates to the shorter list,
as the Rust iterator zip does. -/
def filterByPred {α : Type} (pred : List (Option Bool)) (vs : List (Option α)) :
    List (Option α) :=
  (pred.zip vs).filterMap fun p =>
    match p.1 with
    | some true => some p.2
    | some false => none
    | none => some none

/-- `build_array_by_predicate` dispatched over the column kinds handled by
`SelectionPlan::execute`; other kinds hit `unimplemented!`. -/
def buildArrayByPredicate (pred : List (Option Bool)) :
    ArrayCol → Except ErrorCode ArrayCol
  | .boolean vs => .ok (.boolean (filterByPred pred vs))
  | .uint64 vs => .ok (.uint64 (filterByPred pred vs))
  | .int64 vs => .ok (.int64 (filterByPred pred vs))
  | .float64 vs => .ok (.float64 (filterByPred pred vs))
  | .utf8 vs => .ok (.utf8 (filterByPred pred vs))
  | .nullCol _ => .error (.rtPanic "unimplemented data type in selection")

/-- `SelectionPlan::execute` applied to the already-executed input batches:
the predicate is evaluated once, on `input[0]` (panicking when the input is
empty), and the resulting Boolean array is reused to filter every batch. -/
def selectionExecuteBatches (schema : NaiveSchema) (expr : PhysicalExpr)
    (input : List RecordBatch) : Except ErrorCode (List RecordBatch) :=
  match input with
  | [] => .error (.rtPanic "index out of bounds: input[0]")
  | b0 :: _ => do
    let cv ← expr.evaluate b0
    let pred ← cv.intoArray.asBoolean
    input.mapM fun b => do
      let cols ← b.columns.mapM (buildArrayByPredicate pred)
      RecordBatch.tryNew schema.toSchema cols

/-- The batch loop of `PhysicalLimitPlan::execute`: emit whole batches until
`n` rows remain to be taken, then a slice of the next batch. -/
def limitBatches (n : Nat) : List RecordBatch → List RecordBatch
  | [] => []
  | b :: rest =>
    if n = 0 then []
    else if b.numRows ≤ n then b :: limitBatches (n - b.numRows) rest
    else [b.slice 0 n]

/-- The batch loop of `PhysicalOffsetPlan::execute`: skip whole batches while
`n` rows remain to be skipped, slice the batch where the skip ends, and pass
the rest through. -/
def offsetBatches (n : Nat) : List RecordBatch → List RecordBatch
  | [] => []
  | b :: rest =>
    if n = 0 then b :: offsetBatches 0 rest
    else if b.numRows ≤ n then offsetBatches (n - b.numRows) rest
    else b.slice n (b.numRows - n) :: offsetBatches 0 rest

/-- `ProjectionPlan::execute` applied to the executed input batches: an empty
projection schema passes the input through unchanged; otherwise every
expression is evaluated per batch and a new batch is assembled under the
projection schema (the Rust `unwrap`s are modelled as error propagation). -/
def projectionExecuteBatches (schema : NaiveSchema) (exprs : List PhysicalExpr)
    (input : List RecordBatch) : Except ErrorCode (List RecordBatch) :=
  if schema.fields.isEmpty then .ok input
  else
    input.mapM fun b => do
      let cols ← exprs.mapM (fun e => e.evaluate b)
      RecordBatch.tryNew schema.toSchema (cols.map ColumnValue.intoArray)

/-- The aggregate operators of the engine with their interior state:
`sum`/`avg` from `physical_plan/aggregate/sum.rs` and `avg.rs`; `count` is
modelled from the spec (the repository file `aggregate/count.rs` is not under
`src/`): an integer counter of non-null values whose result is UInt64. -/
inductive AggOp where
  | sum (acc : Rat) (colExpr : ColumnExpr)
  | avg (acc : Rat) (cnt : Nat) (colExpr : ColumnExpr)
  | count (cnt : Nat) (colExpr : ColumnExpr)
deriving DecidableEq, Repr

/-- The shared shape of the `data_field` methods: look the argument column up
by name, else by index (panic on an out-of-range index), and wrap its name in
the function name with the given result type. -/
def aggDataField (ce : ColumnExpr) (schema : NaiveSchema) (fn : String)
    (dt : DataType) : Except ErrorCode NaiveField :=
  match ce.name with
  | some name => do
    let f ← schema.fieldWithUnqualifiedName name
    .ok ⟨none, fn ++ "(" ++ f.name ++ ")", dt, false⟩
  | none =>
    match ce.idx with
    | some i =>
      match schema.fields.get? i with
      | some f => .ok ⟨none, fn ++ "(" ++ f.name ++ ")", dt, false⟩
      | none => .error (.rtPanic "schema field index out of bounds")
    | none => .error (.logicalError "ColumnExpr must has name or idx")

/-- `AggregateOperator::data_field` for each operator (`sum`/`avg` produce a
Float64 field, `count` a UInt64 field). -/
def AggOp.dataField (op : AggOp) (schema : NaiveSchema) :
    Except ErrorCode NaiveField :=
  match op with
  | .sum _ ce => aggDataField ce schema "sum" .float64
  | .avg _ _ ce => aggDataField ce schema "avg" .float64
  | .count _ ce => aggDataField ce schema "count" .uint64

/-- `AggregateOperator::update_batch`: fold a whole batch into the operator
state, skipping null values. -/
def AggOp.updateBatch (op : AggOp) (data : RecordBatch) :
    Except ErrorCode AggOp :=
  match op with
  | .sum s ce => do
    let cv ← ce.evaluate data
    match cv.intoArray with
    | .int64 vs => .ok (.sum (s + ((vs.filterMap id).map (fun n => (n : Rat))).sum) ce)
    | .uint64 vs => .ok (.sum (s + ((vs.filterMap id).map (fun n => (n : Rat))).sum) ce)
    | .float64 vs => .ok (.sum (s + (vs.filterMap id).sum) ce)
    | _ => .error (.notSupported "Sum func for this type is not supported")
  | .avg s c ce => do
    let cv ← ce.evaluate data
    match cv.intoArray with
    | .int64 vs =>
      .ok (.avg (s + ((vs.filterMap id).map (fun n => (n : Rat))).sum)
        (c + (vs.filterMap id).length) ce)
    | .uint64 vs =>
      .ok (.avg (s + ((vs.filterMap id).map (fun n => (n : Rat))).sum)
        (c + (vs.filterMap id).length) ce)
    | .float64 vs =>
      .ok (.avg (s + (vs.filterMap id).sum) (c + (vs.filterMap id).length) ce)
    | _ => .error (.notSupported "Avg func for this type is not supported")
  | .count c ce => do
    let cv ← ce.evaluate data
    .ok (.count (c + (cv.intoArray.entries.filterMap id).length) ce)

/-- `AggregateOperator::update`: fold a single row (by index) into the
operator state; a null cell leaves the state unchanged, an out-of-range index
models the Rust panic. -/
def AggOp.update (op : AggOp) (data : RecordBatch) (idx : Nat) :
    Except ErrorCode AggOp :=
  match op with
  | .sum s ce => do
    let cv ← ce.evaluate data
    match cv.intoArray with
    | .int64 vs =>
      match vs.get? idx with
      | some (some v) => .ok (.sum (s + (v : Rat)) ce)
      | some none => .ok (.sum s ce)
      | none => .error (.rtPanic "row index out of bounds")
    | .uint64 vs =>
      match vs.get? idx with
      | some (some v) => .ok (.sum (s + (v : Rat)) ce)
      | some none => .ok (.sum s ce)
      | none => .error (.rtPanic "row index out of bounds")
    | .float64 vs =>
      match vs.get? idx with
      | some (some v) => .ok (.sum (s + v) ce)
      | some none => .ok (.sum s ce)
      | none => .error (.rtPanic "row index out of bounds")
    | _ => .error (.rtPanic "unimplemented data type in Sum update")
  | .avg s c ce => do
    let cv ← ce.evaluate data
    match cv.intoArray with
    | .int64 vs =>
      match vs.get? idx with
      | some (some v) => .ok (.avg (s + (v : Rat)) (c + 1) ce)
      | some none => .ok (.avg s c ce)
      | none => .error (.rtPanic "row index out of bounds")
    | .uint64 vs =>
      match vs.get? idx with
      | some (some v) => .ok (.avg (s + (v : Rat)) (c + 1) ce)
      | some none => .ok (.avg s c ce)
      | none => .error (.rtPanic "row index out of bounds")
    | .float64 vs =>
      match vs.get? idx with
      | some (some v) => .ok (.avg (s + v) (c + 1) ce)
      | some none => .ok (.avg s c ce)
      | none => .error (.rtPanic "row index out of bounds")
    | _ => .error (.rtPanic "unimplemented data type in Avg update")
  | .count c ce => do
    let cv ← ce.evaluate data
    match cv.intoArray.entries.get? idx with
    | some (some _) => .ok (.count (c + 1) ce)
    | some none => .ok (.count c ce)
    | none => .error (.rtPanic "row index out of bounds")

/-- `AggregateOperator::evaluate`: the current aggregate result (for `avg`
over rationals, an empty count yields 0 where Rust f64 yields NaN; no theorem
below observes that value). -/
def AggOp.evaluate : AggOp → ScalarValue
  | .sum s _ => .float64 (some s)
  | .avg s c _ => .float64 (some (s / (c : Rat)))
  | .count c _ => .uint64 (some c)

/-- `AggregateOperator::clear_state`. -/
def AggOp.clearState : AggOp → AggOp
  | .sum _ ce => .sum 0 ce
  | .avg _ _ ce => .avg 0 0 ce
  | .count _ ce => .count 0 ce

/-- The group-by key of an aggregation: the engine supports Int64, UInt64 and
Utf8 keys. -/
inductive GroupKey where
  | gInt (v : Int)
  | gNat (v : Nat)
  | gStr (v : String)
deriving DecidableEq, Repr

/-- Insertion into the group map in first-seen order: a known key appends the
row index to its group, an unknown key opens a new group at the end. -/
def insertGroup (groups : List (GroupKey × List Nat)) (k : GroupKey) (i : Nat) :
    List (GroupKey × List Nat) :=
  match groups with
  | [] => [(k, [i])]
  | (k0, is) :: rest =>
    if k0 = k then (k0, is ++ [i]) :: rest
    else (k0, is) :: insertGroup rest k i

/-- One step of the `group_by_datatype` grouping loop: a non-null key is
inserted with its row index, a null key is skipped. -/
def groupStep (gs : List (GroupKey × List Nat)) (p : Nat × Option GroupKey) :
    List (GroupKey × List Nat) :=
  match p.2 with
  | some v => insertGroup gs v p.1
  | none => gs

/-- The group map of the `group_by_datatype` loop, in first-seen key order;
null keys are skipped. -/
def groupIdxs (vals : List (Option GroupKey)) : List (GroupKey × List Nat) :=
  vals.enum.foldl groupStep []

/-- The key column of a GROUP BY, wrapped into `GroupKey` by data type; other
types fail with `NotSupported` as in the `match val.data_type()` of
`PhysicalAggregatePlan::execute`. -/
def groupKeysOf : ArrayCol → Except ErrorCode (List (Option GroupKey))
  | .int64 vs => .ok (vs.map (Option.map GroupKey.gInt))
  | .uint64 vs => .ok (vs.map (Option.map GroupKey.gNat))
  | .utf8 vs => .ok (vs.map (Option.map GroupKey.gStr))
  | _ => .error (.notSupported "group by only support by Int64, UInt64, String")

/-- The per-group loop of `group_by_datatype`: update every operator with the
rows of the group, emit a one-row batch of the results, clear the state, and
continue with the remaining groups. -/
def aggGroupsGo (outSchema : List Field) (single : RecordBatch) :
    List AggOp → List (GroupKey × List Nat) → Except ErrorCode (List RecordBatch)
  | _, [] => .ok []
  | ops, (_, idxs) :: rest => do
    let ops1 ← idxs.foldlM (fun os i => os.mapM (fun op => op.update single i)) ops
    let arrays := ops1.map fun op => op.evaluate.intoArray 1
    let b ← RecordBatch.tryNew outSchema arrays
    let ops2 := ops1.map AggOp.clearState
    let bs ← aggGroupsGo outSchema single ops2 rest
    .ok (b :: bs)

/-- Modelled from the spec: `concat_batches` (defined in a repository file not
under `src/`): concatenate the batches column-wise under the given schema
(only column types are checked, not field names). -/
def concatColAt (bs : List RecordBatch) (i : Nat) (dt : DataType) :
    Except ErrorCode ArrayCol :=
  bs.foldlM
    (fun acc b =>
      match b.columns.get? i with
      | some c =>
        if c.dataType = dt then .ok (acc.append c)
        else .error (.arrowError "column type mismatch in concat")
      | none => .error (.arrowError "missing column in concat"))
    dt.emptyCol

/-- Modelled from the spec: batch concatenation under a target schema. -/
def concatBatches (schema : List Field) (bs : List RecordBatch) :
    Except ErrorCode RecordBatch := do
  let cols ← schema.enum.mapM fun p => concatColAt bs p.1 p.2.dataType
  .ok ⟨schema, cols⟩

/-- `sqlparser::ast::Ident`: an identifier with an optional quote style. -/
structure Ident where
  value : String
  quoteStyle : Option Char
deriving DecidableEq, Repr

/-- The `sqlparser::ast::Value` variants consumed by `UpdatePlan` and the
planner.  A numeric literal is pre-split on the presence of a decimal point
(the `num_str.contains` test of the source) and carries its integer and
rational parses; unparseable numerals (`LogicalError` in the source) are not
modelled. -/
inductive SqlValue where
  | number (hasDot : Bool) (ival : Int) (fval : Rat)
  | singleQuotedString (s : String)
  | boolean (b : Bool)
  | null
  | otherValue
deriving DecidableEq, Repr

/-- The `sqlparser::ast::Expr` shape of an UPDATE assignment value: the source
matches `Expr::Value` and hits `todo!` otherwise. -/
inductive AssignExpr where
  | value (v : SqlValue)
  | otherExpr
deriving DecidableEq, Repr

/-- `sqlparser::ast::Assignment`: a column identifier and the value
expression. -/
structure Assignment where
  id : Ident
  value : AssignExpr
deriving DecidableEq, Repr

/-- One pass of the rebuild loops in `update_column_with_value`: rows listed
in `rows` take the literal cell, all other rows keep their original cell. -/
def updRows {α : Type} (rows : List Nat) (lit : Option α)
    (vs : List (Option α)) : List (Option α) :=
  vs.mapIdx fun i old => if rows.contains i then lit else old

/-- `UpdatePlan::update_column_with_value`: rebuild one column, writing the
literal at the rows to update.  The unconditional Rust downcasts panic when
the literal kind does not match the column kind (notably `NULL` downcasts to
`StringArray`); panics are modelled as `rtPanic`. -/
def updateColumnWithValue (col : ArrayCol) (value : AssignExpr)
    (rows : List Nat) : Except ErrorCode ArrayCol :=
  match value with
  | .value v =>
    match v with
    | .number hasDot ival fval =>
      if hasDot then
        match col with
        | .float64 vs => .ok (.float64 (updRows rows (some fval) vs))
        | _ => .error (.rtPanic "downcast to Float64Array failed")
      else
        match col with
        | .int64 vs => .ok (.int64 (updRows rows (some ival) vs))
        | _ => .error (.rtPanic "downcast to Int64Array failed")
    | .singleQuotedString s =>
      match col with
      | .utf8 vs => .ok (.utf8 (updRows rows (some s) vs))
      | _ => .error (.rtPanic "downcast to StringArray failed")
    | .boolean b =>
      match col with
      | .boolean vs => .ok (.boolean (updRows rows (some b) vs))
      | _ => .error (.rtPanic "downcast to BooleanArray failed")
    | .null =>
      match col with
      | .utf8 vs => .ok (.utf8 (updRows rows none vs))
      | _ => .error (.rtPanic "downcast to StringArray failed")
    | .otherValue => .error (.rtPanic "todo: other value types")
  | .otherExpr => .error (.rtPanic "todo: non-value expressions")

/-- The inner loop of `UpdatePlan::apply_assignments` for one column: every
assignment whose identifier equals the field name rewrites the column in
order. -/
def applyAssignmentsCol (assignments : List Assignment) (fieldName : String)
    (col : ArrayCol) (rows : List Nat) : Except ErrorCode ArrayCol :=
  assignments.foldlM
    (fun c a =>
      if a.id.value = fieldName then updateColumnWithValue c a.value rows
      else pure c)
    col

/-- `UpdatePlan::apply_assignments`: rebuild each column against the batch
schema field of the same index, then reassemble the batch under the unchanged
schema. -/
def applyAssignments (assignments : List Assignment) (b : RecordBatch)
    (rows : List Nat) : Except ErrorCode RecordBatch := do
  let cols ← b.columns.enum.mapM fun p =>
    match b.schema.get? p.1 with
    | some f => applyAssignmentsCol assignments f.name p.2 rows
    | none => .error (.rtPanic "schema field index out of bounds")
  RecordBatch.tryNew b.schema cols

/-- The row collection of `UpdatePlan::execute`: indices whose predicate bit
is valid and true. -/
def rowsToUpdate (pred : List (Option Bool)) : List Nat :=
  pred.enum.filterMap fun p => if p.2 = some true then some p.1 else none

/-- `UpdatePlan::execute` applied to the executed input batches: per batch,
evaluate the condition to a Boolean array, collect the rows to update, and
apply the assignments. -/
def updateBatches (conditions : PhysicalExpr) (assignments : List Assignment)
    (bs : List RecordBatch) : Except ErrorCode (List RecordBatch) :=
  bs.mapM fun b => do
    let cv ← conditions.evaluate b
    let pred ← cv.intoArray.asBoolean
    applyAssignments assignments b (rowsToUpdate pred)

/-- The physical operator tree, covering the operators the claims are about
(scan, selection, projection, limit, offset, aggregate, update, create
table). -/
inductive PPlan where
  | scan (source : CsvTable) (projection : Option (List Nat))
  | selection (input : PPlan) (expr : PhysicalExpr)
  | projection (input : PPlan) (schema : NaiveSchema) (exprs : List PhysicalExpr)
  | limit (input : PPlan) (n : Nat)
  | offset (input : PPlan) (n : Nat)
  | aggregate (groupExpr : List PhysicalExpr) (aggrOps : List AggOp)
      (input : PPlan) (schema : NaiveSchema)
  | update (input : PPlan) (conditions : PhysicalExpr)
      (assignments : List Assignment)
  | createTable (schema : NaiveSchema)
deriving DecidableEq, Repr

/-- `PhysicalPlan::schema` of each operator, as implemented in the source:
scan returns the source schema, selection/limit/offset/update return the
input schema, projection/aggregate/createTable return their stored schema. -/
def PPlan.schema : PPlan → NaiveSchema
  | .scan src _ => src.schema
  | .selection inp _ => inp.schema
  | .projection _ sch _ => sch
  | .limit inp _ => inp.schema
  | .offset inp _ => inp.schema
  | .aggregate _ _ _ sch => sch
  | .update inp _ _ => inp.schema
  | .createTable sch => sch

/-- `PhysicalAggregatePlan::create`: the stored schema is a clone of the input
schema. -/
def PhysicalAggregatePlan.create (groupExpr : List PhysicalExpr)
    (aggrOps : List AggOp) (input : PPlan) : PPlan :=
  .aggregate groupExpr aggrOps input input.schema

/-- One execution of a physical plan.  `hashOrd` is the iteration order of the
group-by `std::collections::HashMap`, passed explicitly because the Rust hash
map leaves it unspecified; it is applied to the group list built in first-seen
order (so `id` models first-seen iteration).  This models a single call of
`execute` on a freshly created plan (the interior aggregator state starts at
its creation value). -/
def PPlan.executeWith
    (hashOrd : List (GroupKey × List Nat) → List (GroupKey × List Nat)) :
    PPlan → Except ErrorCode (List RecordBatch)
  | .scan src proj => src.scan proj
  | .selection inp e => do
    selectionExecuteBatches inp.schema e (← inp.executeWith hashOrd)
  | .projection inp sch exprs => do
    projectionExecuteBatches sch exprs (← inp.executeWith hashOrd)
  | .limit inp n => (inp.executeWith hashOrd).map (limitBatches n)
  | .offset inp n => (inp.executeWith hashOrd).map (offsetBatches n)
  | .update inp cond asg => do
    updateBatches cond asg (← inp.executeWith hashOrd)
  | .createTable _ => .ok []
  | .aggregate g ops inp sch => do
    let fields ← ops.mapM (fun op => op.dataField sch)
    let outSchema := fields.map NaiveField.toField
    let batches ← inp.executeWith hashOrd
    if g.isEmpty then
      let ops1 ← batches.foldlM (fun os b => os.mapM (fun op => op.updateBatch b)) ops
      let arrays := ops1.map fun op => op.evaluate.intoArray 1
      let b ← RecordBatch.tryNew outSchema arrays
      .ok [b]
    else do
      let single ← concatBatches inp.schema.toSchema batches
      match g with
      | [] => .error .others
      | g0 :: _ => do
        let cv ← g0.evaluate single
        let keys ← groupKeysOf cv.intoArray
        let out ← aggGroupsGo outSchema single ops (hashOrd (groupIdxs keys))
        let single2 ← concatBatches outSchema out
        .ok [single2]

/-- `Column` from `logical_plan/expression.rs`: optional table qualifier and
column name. -/
structure Column where
  table : Option String
  name : String
deriving DecidableEq, Repr

/-- `AggregateFunc` from `logical_plan/expression.rs`. -/
inductive AggregateFunc where
  | count
  | sum
  | min
  | max
  | avg
deriving DecidableEq, Repr

/-- `LogicalExpr` from `logical_plan/expression.rs` (the aggregate-function
struct is folded into its constructor). -/
inductive LogicalExpr where
  | alias (e : LogicalExpr) (name : String)
  | column (c : Column)
  | literal (v : ScalarValue)
  | binaryExpr (l : LogicalExpr) (op : Operator) (r : LogicalExpr)
  | aggregateFunction (fn : AggregateFunc) (args : LogicalExpr)
  | wildcard
deriving DecidableEq, Repr

/-- `JoinType` from `logical_plan/plan.rs`. -/
inductive JoinType where
  | inner
  | left
  | right
  | cross
deriving DecidableEq, Repr

/-- The `SetExpr` payload of an INSERT, restricted to the VALUES rows the
engine consumes. -/
abbrev SetExpr := List (List SqlValue)

/-- `LogicalPlan` from `logical_plan/plan.rs` (table sources are `CsvTable`,
the only `TableSource` implementation under `src/`). -/
inductive LogicalPlan where
  | projection (exprs : List LogicalExpr) (input : LogicalPlan)
      (schema : NaiveSchema)
  | filter (predicate : LogicalExpr) (input : LogicalPlan)
  | aggregate (input : LogicalPlan) (groupExpr : List LogicalExpr)
      (aggrExpr : List (AggregateFunc × LogicalExpr)) (schema : NaiveSchema)
  | join (left : LogicalPlan) (right : LogicalPlan)
      (onKeys : List (Column × Column)) (joinType : JoinType) (schema : NaiveSchema)
  | crossJoin (left : LogicalPlan) (right : LogicalPlan)
      (onKeys : List (Column × Column)) (joinType : JoinType) (schema : NaiveSchema)
  | limit (n : Nat) (input : LogicalPlan)
  | offset (n : Nat) (input : LogicalPlan)
  | tableScan (source : CsvTable) (projection : Option (List Nat))
  | update (assignments : List Assignment) (input : LogicalPlan)
      (conditions : LogicalExpr)
  | insert (columns : List Ident) (valuesSource : SetExpr)
      (input : LogicalPlan)
  | delete (source : CsvTable) (input : LogicalPlan)
      (conditions : LogicalExpr)
  | createTable (tableName : String) (schema : NaiveSchema)
deriving DecidableEq, Repr

/-- `LogicalPlan::schema` as implemented: a `TableScan` returns the full
source schema (its projection field is ignored here). -/
def LogicalPlan.schema : LogicalPlan → NaiveSchema
  | .projection _ _ s => s
  | .filter _ inp => inp.schema
  | .aggregate _ _ _ s => s
  | .join _ _ _ _ s => s
  | .crossJoin _ _ _ _ s => s
  | .limit _ inp => inp.schema
  | .offset _ inp => inp.schema
  | .tableScan src _ => src.schema
  | .update _ inp _ => inp.schema
  | .insert _ _ inp => inp.schema
  | .delete _ inp _ => inp.schema
  | .createTable _ s => s

/-- `ProjectionPushDown::optimize` from `optimizer/projection_push_down.rs`:
a projection directly over a table scan is replaced by the scan with a
projection of the indices `0..k` (`k` the number of projection expressions);
every other plan is returned unchanged. -/
def ProjectionPushDown.optimize (plan : LogicalPlan) : LogicalPlan :=
  match plan with
  | .projection exprs input _ =>
    match input with
    | .tableScan source existing =>
      let newProjection := some (List.range exprs.length)
      .tableScan source (newProjection.or existing)
    | _ => plan
  | _ => plan

/-- The `Optimizer` of `optimizer/mod.rs`: a list of rules, each a
plan-to-plan function. -/
structure Optimizer where
  rules : List (LogicalPlan → LogicalPlan)

/-- `Optimizer::default()`: the derived `Default` yields an empty rule
list. -/
def Optimizer.mkDefault : Optimizer := ⟨[]⟩

/-- `Optimizer::optimize`: apply each rule once in declared order. -/
def Optimizer.optimize (o : Optimizer) (plan : LogicalPlan) : LogicalPlan :=
  o.rules.foldl (fun p r => r p) plan

/-- The catalog as the mapping underlying its `HashMap<String, TableRef>`. -/
def Catalog := String → Option CsvTable

/-- `Catalog::remove_table`. -/
def Catalog.removeTable (c : Catalog) (name : String) : Catalog :=
  fun k => if k = name then none else c k

/-- `Catalog::add_new_table` (`HashMap::insert`, replacing any previous
entry). -/
def Catalog.addNewTable (c : Catalog) (name : String) (t : CsvTable) : Catalog :=
  fun k => if k = name then some t else c k

/-- `Catalog::get_table`: clone of the entry, else `NoSuchTable`. -/
def Catalog.getTable (c : Catalog) (name : String) : Except ErrorCode CsvTable :=
  match c name with
  | some t => .ok t
  | none => .error (.noSuchTable ("No table name: " ++ name))

/-- A parsed object name (`sqlparser::ast::ObjectName`). -/
abbrev ObjectName := List Ident

/-- `normalize_ident` from `sql/planner.rs`: unquoted identifiers are
lowercased, quoted identifiers are preserved. -/
def normalizeIdent (id : Ident) : String :=
  match id.quoteStyle with
  | some _ => id.value
  | none => id.value.toLower

/-- `SQLPlanner::normalize_sql_object_name`. -/
def normalizeSqlObjectName (n : ObjectName) : String :=
  String.intercalate "." (n.map normalizeIdent)

/-- `SimpleDB::name_convert` from `db.rs` (joins the raw ident values; no
lowercasing). -/
def nameConvert (n : ObjectName) : String :=
  String.intercalate "." (n.map Ident.value)

/-- The `sqlparser::ast::Expr` fragment consumed by `sql_to_expr`. -/
inductive SqlExpr where
  | value (v : SqlValue)
  | identifier (id : Ident)
  | compoundIdentifier (ids : List Ident)
  | binaryOp (l : SqlExpr) (op : Operator) (r : SqlExpr)
  | otherExpr
deriving DecidableEq, Repr

/-- `SQLPlanner::sql_to_expr` on the modelled fragment.  A numeric literal
parses to Int64 when it has no decimal point and to Float64 otherwise; a
compound identifier must have exactly two parts; the `todo!` arms are modelled
as `rtPanic`. -/
def sqlToExpr : SqlExpr → Except ErrorCode LogicalExpr
  | .value (.boolean b) => .ok (.literal (.boolean (some b)))
  | .value (.number hasDot i q) =>
    .ok (.literal (if hasDot then .float64 (some q) else .int64 (some i)))
  | .value (.singleQuotedString s) => .ok (.literal (.utf8 (some s)))
  | .value .null => .ok (.literal .null)
  | .value .otherValue => .error (.rtPanic "todo: expression kind")
  | .identifier id => .ok (.column ⟨none, normalizeIdent id⟩)
  | .binaryOp l op r => do
    let le ← sqlToExpr l
    let re ← sqlToExpr r
    .ok (.binaryExpr le op re)
  | .compoundIdentifier ids =>
    match ids with
    | [t, n] => .ok (.column ⟨some t.value, n.value⟩)
    | _ => .error .notImplemented
  | .otherExpr => .error (.rtPanic "todo: expression kind")

/-- `SQLPlanner::parse_table_new`: resolve the table in the catalog and emit a
scan without projection. -/
def parseTableNew (catalog : Catalog) (name : ObjectName) :
    Except ErrorCode LogicalPlan := do
  let tableName := normalizeSqlObjectName name
  let source ← catalog.getTable tableName
  .ok (.tableScan source none)

/-- `DataFrame::update`: wrap the plan in an Update node. -/
def DataFrame.update (plan : LogicalPlan) (conditions : LogicalExpr)
    (assignments : List Assignment) : Except ErrorCode LogicalPlan :=
  .ok (.update assignments plan conditions)

/-- `DataFrame::delete`: wrap the plan in a Delete node. -/
def DataFrame.delete (plan : LogicalPlan) (source : CsvTable)
    (conditions : LogicalExpr) : Except ErrorCode LogicalPlan :=
  .ok (.delete source plan conditions)

/-- `SQLPlanner::plan_update_assignments`: a missing WHERE clause fails with
`NotImplemented`, otherwise the condition is lowered and an Update node is
emitted. -/
def planUpdateAssignments (selection : Option SqlExpr)
    (assignments : List Assignment) (plan : LogicalPlan) :
    Except ErrorCode LogicalPlan :=
  match selection with
  | some e => do
    let conditions ← sqlToExpr e
    DataFrame.update plan conditions assignments
  | none => .error .notImplemented

/-- `SQLPlanner::plan_delete`: the target is looked up again in the catalog,
then a missing WHERE clause fails with `NotImplemented`, otherwise a Delete
node is emitted. -/
def planDelete (catalog : Catalog) (tableName : ObjectName)
    (selection : Option SqlExpr) (plan : LogicalPlan) :
    Except ErrorCode LogicalPlan := do
  let name := normalizeSqlObjectName tableName
  let source ← catalog.getTable name
  match selection with
  | some e => do
    let conditions ← sqlToExpr e
    DataFrame.delete plan source conditions
  | none => .error .notImplemented

/-- The UPDATE arm of `SQLPlanner::statement_to_plan`: resolve the table,
then plan the assignments. -/
def statementToPlanUpdate (catalog : Catalog) (tableName : ObjectName)
    (assignments : List Assignment) (selection : Option SqlExpr) :
    Except ErrorCode LogicalPlan := do
  let plan ← parseTableNew catalog tableName
  planUpdateAssignments selection assignments plan

/-- The DELETE arm of `SQLPlanner::statement_to_plan`: resolve the table,
then plan the deletion. -/
def statementToPlanDelete (catalog : Catalog) (tableName : ObjectName)
    (selection : Option SqlExpr) : Except ErrorCode LogicalPlan := do
  let plan ← parseTableNew catalog tableName
  planDelete catalog tableName selection plan

/-- The statement kinds distinguished by the driver match in
`SimpleDB::run_sql`, with the payloads that match consumes. -/
inductive Stmt where
  | query
  | createTable (name : ObjectName)
  | drop (names : List ObjectName)
  | update (tableName : ObjectName)
  | insert (tableName : ObjectName)
  | delete (tableName : ObjectName)
  | otherStmt
deriving DecidableEq, Repr

/-- The front-end stages `run_sql` consumes: the external SQL parser, the SQL
planner, and the logical-to-physical planner, as pure functions. -/
structure Frontend where
  parse : String → Except ErrorCode Stmt
  statementToPlan : Catalog → Stmt → Except ErrorCode LogicalPlan
  createPhysicalPlan : LogicalPlan → Except ErrorCode PPlan

/-- The shared Update/Insert/Delete arm of the driver match: look the target
up, require the first execution to have succeeded, then atomically replace
the catalog entry by a `CsvTable` with the old schema and the executed
batches. -/
def runSqlMutate (db : Catalog) (tableName : ObjectName)
    (newTable newTable2 : Except ErrorCode (List RecordBatch)) :
    Except ErrorCode (List RecordBatch) × Catalog :=
  let oldTable := nameConvert tableName
  match db.getTable oldTable with
  | .error e => (.error e, db)
  | .ok tableRef =>
    match newTable with
    | .error e => (.error e, db)
    | .ok batches =>
      let source : CsvTable := ⟨tableRef.schema, batches⟩
      let db1 := (db.removeTable oldTable).addNewTable oldTable source
      (newTable2, db1)

/-- `SimpleDB::run_sql` from `db.rs`: parse, plan, optimize with
`Optimizer::default`, lower, execute, re-parse, execute again, then apply the
mutation arm selected by the statement kind.  The pair returned is (the Rust
return value, the catalog after the call). -/
def runSql (fe : Frontend)
    (hashOrd : List (GroupKey × List Nat) → List (GroupKey × List Nat))
    (db : Catalog) (sql : String) :
    Except ErrorCode (List RecordBatch) × Catalog :=
  match fe.parse sql with
  | .error e => (.error e, db)
  | .ok statement1 =>
    match fe.statementToPlan db statement1 with
    | .error e => (.error e, db)
    | .ok logicalPlan =>
      let optimized := Optimizer.mkDefault.optimize logicalPlan
      match fe.createPhysicalPlan optimized with
      | .error e => (.error e, db)
      | .ok physicalPlan =>
        let newTable := physicalPlan.executeWith hashOrd
        match fe.parse sql with
        | .error e => (.error e, db)
        | .ok statement2 =>
          let newTable2 := physicalPlan.executeWith hashOrd
          match statement2 with
          | .query => (newTable2, db)
          | .createTable name =>
            let tableName := nameConvert name
            let schema := physicalPlan.schema
            let tableCsv : CsvTable := ⟨schema, []⟩
            (newTable2, db.addNewTable tableName tableCsv)
          | .drop names =>
            (newTable2, names.foldl (fun c n => c.removeTable (nameConvert n)) db)
          | .update tableName => runSqlMutate db tableName newTable newTable2
          | .insert tableName => runSqlMutate db tableName newTable newTable2
          | .delete tableName => runSqlMutate db tableName newTable newTable2
          | .otherStmt => (.error (.rtPanic "unimplemented statement"), db)

instance (b : RecordBatch) : Decidable b.wf := by
  unfold RecordBatch.wf
  infer_instance

/-- The literal cell written by an UPDATE assignment (null writes null). -/
def litCell : SqlValue → Option CellVal
  | .number hasDot ival fval =>
    if hasDot then some (.vRat fval) else some (.vInt ival)
  | .singleQuotedString s => some (.vStr s)
  | .boolean b => some (.vBool b)
  | .null => none
  | .otherValue => none

/-- The schema actually carried by the batches `executeWith` returns (the
aggregate case is the aggregator-derived schema, not the operator's stored
schema). -/
def expectedExecSchema : PPlan → List Field
  | .scan src _ => src.schema.toSchema
  | .selection inp _ => inp.schema.toSchema
  | .projection inp sch _ =>
    if sch.fields.isEmpty then expectedExecSchema inp else sch.toSchema
  | .limit inp _ => expectedExecSchema inp
  | .offset inp _ => expectedExecSchema inp
  | .update inp _ _ => expectedExecSchema inp
  | .createTable sch => sch.toSchema
  | .aggregate _ ops _ sch =>
    match ops.mapM (fun op => op.dataField sch) with
    | .ok fields => fields.map NaiveField.toField
    | .error _ => []

/-- Sources reachable from the plan store batches matching their schema. -/
def PPlan.sourcesWf : PPlan → Prop
  | .scan src _ => ∀ b ∈ src.batches, b.schema = src.schema.toSchema ∧ b.wf
  | .selection inp _ => inp.sourcesWf
  | .projection inp _ _ => inp.sourcesWf
  | .limit inp _ => inp.sourcesWf
  | .offset inp _ => inp.sourcesWf
  | .update inp _ _ => inp.sourcesWf
  | .createTable _ => True
  | .aggregate _ _ inp _ => inp.sourcesWf

/-- Every aggregate node carries at least one aggregate operator (the SQL
planner builds aggregate nodes only from a non-empty aggregate list). -/
def PPlan.aggrOpsNonempty : PPlan → Prop
  | .scan _ _ => True
  | .selection inp _ => inp.aggrOpsNonempty
  | .projection inp _ _ => inp.aggrOpsNonempty
  | .limit inp _ => inp.aggrOpsNonempty
  | .offset inp _ => inp.aggrOpsNonempty
  | .update inp _ _ => inp.aggrOpsNonempty
  | .createTable _ => True
  | .aggregate _ ops inp _ => ops ≠ [] ∧ inp.aggrOpsNonempty

/-- A small well-formed demo batch used by witnesses. -/
def demoBatch : RecordBatch :=
  ⟨[⟨"a", .int64, false⟩], [.int64 [some 1, some 2, some 3]]⟩

/-- A demo table with two columns used by concrete counterexamples. -/
def demoTable2 : CsvTable :=
  ⟨⟨[⟨some "t", "id", .int64, false⟩, ⟨none, "name", .utf8, true⟩]⟩,
   [⟨[⟨"t.id", .int64, false⟩, ⟨"name", .utf8, true⟩],
     [.int64 [some 1], .utf8 [some "a"]]⟩]⟩

/-- A demo catalog holding `demoTable2` under the name `t`. -/
def demoCatalog : Catalog :=
  fun k => if k = "t" then some demoTable2 else none

/-- A concrete frontend for the C3 witness: always parses to an UPDATE of
table `t`, plans to some logical plan, and lowers to a plan executing to zero
batches. -/
def demoFrontend : Frontend where
  parse := fun _ => .ok (.update [⟨"t", some 'q'⟩])
  statementToPlan := fun _ _ => .ok (.createTable "t" ⟨[]⟩)
  createPhysicalPlan := fun _ => .ok (.createTable ⟨[]⟩)

/-- A source with one Boolean column and two single-row batches, the
predicate column being true in the first batch and false in the second. -/
def selTable : CsvTable :=
  ⟨⟨[⟨none, "p", .boolean, false⟩]⟩,
   [⟨[⟨"p", .boolean, false⟩], [.boolean [some true]]⟩,
    ⟨[⟨"p", .boolean, false⟩], [.boolean [some false]]⟩]⟩

/-- The selection of `selTable` by its own Boolean column. -/
def selPlanDemo : PPlan :=
  .selection (.scan selTable none) (.column ⟨none, some 0⟩)

/-- A one-column Int64 source with no stored batches, used to exercise the
aggregate operator (an aggregate over it still emits one result row). -/
def aggCexSource : CsvTable :=
  ⟨⟨[⟨none, "a", .int64, false⟩]⟩, []⟩

/-- An aggregate plan `SELECT sum(a)` (no GROUP BY) as built by
`PhysicalAggregatePlan::create` over a scan of `aggCexSource`; its stored
schema is the input schema. -/
def aggCexPlan : PPlan :=
  PhysicalAggregatePlan.create [] [.sum 0 ⟨none, some 0⟩] (.scan aggCexSource none)

/-- The batch that executing `aggCexPlan` actually produces: one Float64
column named by the aggregator's `data_field`. -/
def aggCexOut : RecordBatch :=
  ⟨[⟨"sum(a)", .float64, false⟩], [.float64 [some 0]]⟩

/-- A one-column Int64 source with one stored batch, for the C1 witness. -/
def aggWitSource : CsvTable :=
  ⟨⟨[⟨none, "a", .int64, false⟩]⟩, [⟨[⟨"a", .int64, false⟩], [.int64 [some 1]]⟩]⟩

/-- A one-Int64-column source whose key column holds the values 1, 2, 2. -/
def aggGroupSource : CsvTable :=
  ⟨⟨[⟨none, "k", .int64, false⟩]⟩,
   [⟨[⟨"k", .int64, false⟩], [.int64 [some 1, some 2, some 2]]⟩]⟩

/-- `SELECT count(k) ... GROUP BY k` over `aggGroupSource`, as built by
`PhysicalAggregatePlan::create`. -/
def aggGroupPlan : PPlan :=
  PhysicalAggregatePlan.create [.column ⟨none, some 0⟩]
    [.count 0 ⟨none, some 0⟩] (.scan aggGroupSource none)

/-! Basic lemmas about batches, slices and rows. -/

theorem ArrayCol.entries_length (c : ArrayCol) : c.entries.length = c.length := by
  cases c <;> simp [ArrayCol.entries, ArrayCol.length]

theorem ArrayCol.length_slice (c : ArrayCol) (off len : Nat) :
    (c.slice off len).length = min len (c.length - off) := by
  cases c <;> simp [ArrayCol.slice, ArrayCol.length]

theorem ArrayCol.dataType_slice (c : ArrayCol) (off len : Nat) :
    (c.slice off len).dataType = c.dataType := by
  cases c <;> simp [ArrayCol.slice, ArrayCol.dataType]

theorem ArrayCol.entries_slice (c : ArrayCol) (off len : Nat) :
    (c.slice off len).entries = (c.entries.drop off).take len := by
  cases c <;>
    simp [ArrayCol.slice, ArrayCol.entries, List.map_take, List.map_drop,
      List.drop_replicate, List.take_replicate]

theorem RecordBatch.numRows_slice (b : RecordBatch) (off len : Nat) :
    (b.slice off len).numRows = min len (b.numRows - off) := by
  rcases b with ⟨s, cols⟩
  cases cols with
  | nil => simp [RecordBatch.slice, RecordBatch.numRows]
  | cons c rest => simp [RecordBatch.slice, RecordBatch.numRows, ArrayCol.length_slice]

theorem RecordBatch.wf_slice {b : RecordBatch} (hb : b.wf) (off len : Nat) :
    (b.slice off len).wf := by
  obtain ⟨hne, hlen, hrows, hty⟩ := hb
  refine ⟨?_, ?_, ?_, ?_⟩
  · rcases b with ⟨s, cols⟩
    cases cols with
    | nil => exact absurd rfl hne
    | cons c rest => simp [RecordBatch.slice]
  · simpa [RecordBatch.slice] using hlen
  · intro c hc
    rcases b with ⟨s, cols⟩
    simp only [RecordBatch.slice, List.mem_map] at hc
    obtain ⟨c0, hc0, rfl⟩ := hc
    rw [ArrayCol.length_slice, RecordBatch.numRows_slice]
    rw [hrows c0 hc0]
  · intro i hi
    rcases b with ⟨s, cols⟩
    simp only [RecordBatch.slice, List.length_map] at hi ⊢
    have := hty i (by simpa using hi)
    rw [List.getD_eq_getElem _ _ (by simpa using hi)] at this ⊢
    simpa [ArrayCol.dataType_slice] using this

theorem RecordBatch.rows_length (b : RecordBatch) :
    b.rows.length = b.numRows := by
  simp [RecordBatch.rows]

theorem rowsOf_nil : rowsOf [] = [] := rfl

theorem rowsOf_cons (b : RecordBatch) (bs : List RecordBatch) :
    rowsOf (b :: bs) = b.rows ++ rowsOf bs := by
  simp [rowsOf]

theorem rowsOf_length (bs : List RecordBatch) :
    (rowsOf bs).length = sumRows bs := by
  induction bs with
  | nil => rfl
  | cons b rest ih =>
    simp only [rowsOf_cons, List.length_append, RecordBatch.rows_length, ih,
      sumRows, List.map_cons, List.sum_cons]

/-- Rows of a slice of a well-formed batch are the corresponding drop/take of
its rows. -/
theorem RecordBatch.rows_slice {b : RecordBatch} (hb : b.wf) (off len : Nat) :
    (b.slice off len).rows = (b.rows.drop off).take len := by
  obtain ⟨hne, hlen, hrows, hty⟩ := hb
  apply List.ext_get
  · rw [RecordBatch.rows_length, RecordBatch.numRows_slice]
    rw [List.length_take, List.length_drop, RecordBatch.rows_length]
  · intro j h1 h2
    have h1m : j < min len (b.numRows - off) := by
      have := h1
      rwa [RecordBatch.rows_length, RecordBatch.numRows_slice] at this
    have hj : j < len := lt_of_lt_of_le h1m (min_le_left _ _)
    have hj2 : off + j < b.numRows := by
      have := lt_of_lt_of_le h1m (min_le_right _ _)
      omega
    have lhs : (b.slice off len).rows.get ⟨j, h1⟩ = (b.slice off len).rowAt j := by
      simp [RecordBatch.rows]
    have rhs : ((b.rows.drop off).take len).get ⟨j, h2⟩ = b.rowAt (off + j) := by
      rw [List.get_eq_getElem, List.getElem_take, List.getElem_drop]
      simp [RecordBatch.rows]
    rw [lhs, rhs]
    rcases b with ⟨s, cols⟩
    simp only [RecordBatch.slice, RecordBatch.rowAt, List.map_map]
    apply List.map_congr_left
    intro c hc
    simp only [Function.comp_apply, ArrayCol.entries_slice]
    have hcl : c.length = RecordBatch.numRows ⟨s, cols⟩ := hrows c hc
    have hel : c.entries.length = RecordBatch.numRows ⟨s, cols⟩ := by
      rw [ArrayCol.entries_length, hcl]
    rw [List.getD_eq_getElem _ _ (by
      rw [List.length_take, List.length_drop, hel]; omega)]
    rw [List.getD_eq_getElem _ _ (by rw [hel]; exact hj2)]
    rw [List.getElem_take, List.getElem_drop]

theorem limitBatches_rows (n : Nat) (bs : List RecordBatch)
    (h : ∀ b ∈ bs, b.wf) :
    rowsOf (limitBatches n bs) = (rowsOf bs).take n := by
  induction bs generalizing n with
  | nil => simp [limitBatches, rowsOf_nil]
  | cons b rest ih =>
    have hb := h b (by simp)
    have hrest : ∀ x ∈ rest, x.wf := fun x hx => h x (by simp [hx])
    by_cases h0 : n = 0
    · subst h0
      simp [limitBatches, rowsOf_nil]
    · by_cases hle : b.numRows ≤ n
      · rw [limitBatches]
        simp only [if_neg h0, if_pos hle]
        rw [rowsOf_cons, ih _ hrest, rowsOf_cons]
        have ht : List.take n b.rows = b.rows :=
          List.take_of_length_le (by rw [RecordBatch.rows_length]; exact hle)
        rw [List.take_append_eq_append_take, ht, RecordBatch.rows_length]
      · rw [limitBatches]
        simp only [if_neg h0, if_neg hle]
        rw [rowsOf_cons, rowsOf_nil, List.append_nil, rowsOf_cons]
        rw [RecordBatch.rows_slice hb, List.drop_zero]
        rw [List.take_append_of_le_length
          (by rw [RecordBatch.rows_length]; omega)]

theorem offsetBatches_rows (n : Nat) (bs : List RecordBatch)
    (h : ∀ b ∈ bs, b.wf) :
    rowsOf (offsetBatches n bs) = (rowsOf bs).drop n := by
  induction bs generalizing n with
  | nil => simp [offsetBatches, rowsOf_nil]
  | cons b rest ih =>
    have hb := h b (by simp)
    have hrest : ∀ x ∈ rest, x.wf := fun x hx => h x (by simp [hx])
    by_cases h0 : n = 0
    · subst h0
      have hu : offsetBatches 0 (b :: rest) = b :: offsetBatches 0 rest := by
        simp [offsetBatches]
      rw [hu, rowsOf_cons, rowsOf_cons, ih _ hrest, List.drop_zero, List.drop_zero]
    · by_cases hle : b.numRows ≤ n
      · rw [offsetBatches]
        simp only [if_neg h0, if_pos hle]
        rw [ih _ hrest, rowsOf_cons]
        have hd : List.drop n b.rows = [] :=
          List.drop_eq_nil_of_le (by rw [RecordBatch.rows_length]; exact hle)
        rw [List.drop_append_eq_append_drop, hd, List.nil_append,
          RecordBatch.rows_length]
      · rw [offsetBatches]
        simp only [if_neg h0, if_neg hle]
        rw [rowsOf_cons, ih _ hrest, List.drop_zero, rowsOf_cons]
        rw [RecordBatch.rows_slice hb]
        have ht : List.take (b.numRows - n) (List.drop n b.rows) =
            List.drop n b.rows :=
          List.take_of_length_le
            (by rw [List.length_drop, RecordBatch.rows_length])
        rw [ht, List.drop_append_eq_append_drop, RecordBatch.rows_length]
        have hz : n - b.numRows = 0 := by omega
        rw [hz, List.drop_zero]

theorem offsetBatches_wf (n : Nat) (bs : List RecordBatch)
    (h : ∀ b ∈ bs, b.wf) :
    ∀ x ∈ offsetBatches n bs, x.wf := by
  induction bs generalizing n with
  | nil => simp [offsetBatches]
  | cons b rest ih =>
    have hb := h b (by simp)
    have hrest : ∀ x ∈ rest, x.wf := fun x hx => h x (by simp [hx])
    by_cases h0 : n = 0
    · subst h0
      rw [offsetBatches]
      simp only [if_pos rfl]
      intro x hx
      rcases List.mem_cons.mp hx with hx | hx
      · exact hx ▸ hb
      · exact ih _ hrest x hx
    · by_cases hle : b.numRows ≤ n
      · rw [offsetBatches]
        simp only [if_neg h0, if_pos hle]
        exact ih _ hrest
      · rw [offsetBatches]
        simp only [if_neg h0, if_neg hle]
        intro x hx
        rcases List.mem_cons.mp hx with hx | hx
        · exact hx ▸ RecordBatch.wf_slice hb _ _
        · exact ih _ hrest x hx

/-- C6: over well-formed input batches, Limit(n) emits exactly the first
`min n r` input rows and Offset(n) emits exactly the last `r - n` input rows,
both preserving input row order (they are `take n` and `drop n` of the
concatenated input rows), and Limit(n) after Offset(k) equals the slice
`[k, k+n)`; the last two conjuncts identify the batch-level loops with the
`execute` methods of the physical Limit and Offset operators. -/
theorem limit_offset_execute_spec (n k : Nat) (bs : List RecordBatch)
    (h : ∀ b ∈ bs, b.wf) :
    rowsOf (limitBatches n bs) = (rowsOf bs).take n ∧
    rowsOf (offsetBatches n bs) = (rowsOf bs).drop n ∧
    sumRows (limitBatches n bs) = min n (sumRows bs) ∧
    sumRows (offsetBatches n bs) = sumRows bs - n ∧
    rowsOf (limitBatches n (offsetBatches k bs)) = ((rowsOf bs).drop k).take n ∧
    (∀ (p : PPlan) ord, (PPlan.limit p n).executeWith ord =
      (p.executeWith ord).map (limitBatches n)) ∧
    (∀ (p : PPlan) ord, (PPlan.offset p n).executeWith ord =
      (p.executeWith ord).map (offsetBatches n)) := by
  refine ⟨limitBatches_rows n bs h, offsetBatches_rows n bs h, ?_, ?_, ?_,
    fun p ord => rfl, fun p ord => rfl⟩
  · rw [← rowsOf_length, ← rowsOf_length, limitBatches_rows n bs h,
      List.length_take]
  · rw [← rowsOf_length, ← rowsOf_length, offsetBatches_rows n bs h,
      List.length_drop]
  · rw [limitBatches_rows n _ (offsetBatches_wf k bs h), offsetBatches_rows k bs h]

/-- Witness for C6 at a concrete three-row input. -/
theorem limit_offset_execute_spec_witness :
    rowsOf (limitBatches 2 [demoBatch]) = (rowsOf [demoBatch]).take 2 ∧
    sumRows (limitBatches 2 [demoBatch]) = min 2 (sumRows [demoBatch]) ∧
    sumRows (offsetBatches 2 [demoBatch]) = sumRows [demoBatch] - 2 := by
  have h := limit_offset_execute_spec 2 1 [demoBatch] (by decide)
  exact ⟨h.1, h.2.2.1, h.2.2.2.1⟩

/-- C7 (amended): a table source's schema is stable (the scan operator reports
exactly the stored schema) and `CsvTable::scan` returns the stored batches
unchanged for every projection argument — the projection argument is
ignored. -/
theorem csvTable_scan_spec (t : CsvTable) (proj : Option (List Nat)) :
    t.scan proj = .ok t.batches ∧ (PPlan.scan t proj).schema = t.schema :=
  ⟨rfl, rfl⟩

/-- C7 counterexample: scanning `demoTable2` with projection `[1]` does not
produce batches under the projected single-field schema; the stored two-column
batches come back unchanged. -/
theorem csvTable_scan_projection_cex :
    demoTable2.scan (some [1]) = .ok demoTable2.batches ∧
    demoTable2.batches.map RecordBatch.schema ≠
      [[NaiveField.toField ⟨none, "name", .utf8, true⟩]] := by
  exact ⟨rfl, by decide⟩

/-- C10: the default-constructed Optimizer (as used by `run_sql`) has an empty
rule list, and its optimize step returns every logical plan unchanged, so the
projection push-down rule is never applied. -/
theorem optimizer_default_identity :
    Optimizer.mkDefault.rules = [] ∧
    ∀ p : LogicalPlan, Optimizer.mkDefault.optimize p = p :=
  ⟨rfl, fun _ => rfl⟩

/-- C8 (amended): the rule set actually installed is empty, so the rules in
the set preserve schemas vacuously; the `ProjectionPushDown` rule itself
replaces a projection above a table scan by the scan restricted to the index
prefix `0..k`, and the resulting plan's schema is the full source schema —
equal to the original projection's schema only when that schema coincides with
the source schema. -/
theorem projectionPushDown_spec (exprs : List LogicalExpr) (src : CsvTable)
    (existing : Option (List Nat)) (sch : NaiveSchema) :
    (∀ p : LogicalPlan, Optimizer.mkDefault.optimize p = p) ∧
    ProjectionPushDown.optimize
        (.projection exprs (.tableScan src existing) sch) =
      .tableScan src (some (List.range exprs.length)) ∧
    (ProjectionPushDown.optimize
        (.projection exprs (.tableScan src existing) sch)).schema = src.schema ∧
    (LogicalPlan.projection exprs (.tableScan src existing) sch).schema = sch :=
  ⟨fun _ => rfl, rfl, rfl, rfl⟩

/-- C8 counterexample: `ProjectionPushDown` applied to the projection of the
second column of `demoTable2` yields a plan whose schema (the full source
schema) differs from the original projection's schema. -/
theorem projectionPushDown_cex :
    (ProjectionPushDown.optimize
        (.projection [.column ⟨none, "name"⟩] (.tableScan demoTable2 none)
          ⟨[⟨none, "name", .utf8, true⟩]⟩)).schema ≠
      (LogicalPlan.projection [.column ⟨none, "name"⟩]
        (.tableScan demoTable2 none) ⟨[⟨none, "name", .utf8, true⟩]⟩).schema := by
  decide

theorem exceptOkBind {α β : Type} (a : α) (f : α → Except ErrorCode β) :
    ((Except.ok a : Except ErrorCode α) >>= f) = f a := rfl

theorem exceptErrBind {α β : Type} (e : ErrorCode) (f : α → Except ErrorCode β) :
    ((Except.error e : Except ErrorCode α) >>= f) = .error e := rfl

/-- C9: when the target table resolves in the catalog, planning an UPDATE or
DELETE without a WHERE clause fails with `NotImplemented`; with a WHERE clause
whose expression lowers successfully, planning emits an Update node (with
conditions and assignments) respectively a Delete node (with conditions) over
a projection-free scan of the target table. -/
theorem plan_update_delete_spec (catalog : Catalog) (name : ObjectName)
    (asg : List Assignment) (src : CsvTable)
    (h : catalog.getTable (normalizeSqlObjectName name) = .ok src) :
    statementToPlanUpdate catalog name asg none = .error .notImplemented ∧
    statementToPlanDelete catalog name none = .error .notImplemented ∧
    (∀ e c, sqlToExpr e = .ok c →
      statementToPlanUpdate catalog name asg (some e) =
        .ok (.update asg (.tableScan src none) c)) ∧
    (∀ e c, sqlToExpr e = .ok c →
      statementToPlanDelete catalog name (some e) =
        .ok (.delete src (.tableScan src none) c)) := by
  have hparse : parseTableNew catalog name = .ok (.tableScan src none) := by
    simp [parseTableNew, h, exceptOkBind]
  refine ⟨?_, ?_, ?_, ?_⟩
  · simp [statementToPlanUpdate, hparse, planUpdateAssignments, exceptOkBind]
  · simp [statementToPlanDelete, hparse, planDelete, h, exceptOkBind]
  · intro e c hc
    simp [statementToPlanUpdate, hparse, planUpdateAssignments, hc,
      DataFrame.update, exceptOkBind]
  · intro e c hc
    simp [statementToPlanDelete, hparse, planDelete, h, hc, DataFrame.delete,
      exceptOkBind]

/-- Witness for C9 on the demo catalog: UPDATE and DELETE of table `t` fail
with NotImplemented without WHERE and plan to the expected nodes with a WHERE
clause. -/
theorem plan_update_delete_spec_witness :
    statementToPlanUpdate demoCatalog [⟨"t", some 'q'⟩] [] none =
      .error .notImplemented ∧
    statementToPlanDelete demoCatalog [⟨"t", some 'q'⟩]
        (some (.value (.boolean true))) =
      .ok (.delete demoTable2 (.tableScan demoTable2 none)
        (.literal (.boolean (some true)))) := by
  have h := plan_update_delete_spec demoCatalog [⟨"t", some 'q'⟩] [] demoTable2
    (by rfl)
  exact ⟨h.1, h.2.2.2 (.value (.boolean true)) (.literal (.boolean (some true)))
    (by rfl)⟩

theorem Catalog.getTable_add_self (c : Catalog) (k : String) (t : CsvTable) :
    (c.addNewTable k t).getTable k = .ok t := by
  simp [Catalog.addNewTable, Catalog.getTable]

theorem Catalog.removeTable_preserves_none {c : Catalog} {k : String}
    (h : c k = none) (m : String) : c.removeTable m k = none := by
  simp [Catalog.removeTable, h]

theorem removeAll_none (names : List ObjectName) (db : Catalog) (k : String)
    (hk : k ∈ names.map nameConvert ∨ db k = none) :
    (names.foldl (fun c n => c.removeTable (nameConvert n)) db) k = none := by
  induction names generalizing db with
  | nil =>
    rcases hk with hk | hk
    · simp at hk
    · simpa using hk
  | cons n0 rest ih =>
    simp only [List.foldl_cons]
    apply ih
    rcases hk with hk | hk
    · simp only [List.map_cons, List.mem_cons] at hk
      rcases hk with hk | hk
      · right
        subst hk
        simp [Catalog.removeTable]
      · left
        exact hk
    · right
      exact Catalog.removeTable_preserves_none hk _

/-- Case analysis of the shared Update/Insert/Delete arm of `run_sql`. -/
theorem runSqlMutate_cases (db : Catalog) (name : ObjectName)
    (res : Except ErrorCode (List RecordBatch)) :
    (∀ e, (runSqlMutate db name res res).1 = .error e →
      (runSqlMutate db name res res).2 = db) ∧
    (∀ bs, (runSqlMutate db name res res).1 = .ok bs →
      ∃ old, db.getTable (nameConvert name) = .ok old ∧
        ((runSqlMutate db name res res).2).getTable (nameConvert name) =
          .ok ⟨old.schema, bs⟩) := by
  rcases hg : db.getTable (nameConvert name) with e0 | old
  · constructor
    · intro e he
      simp [runSqlMutate, hg]
    · intro bs hbs
      simp [runSqlMutate, hg] at hbs
  · rcases hres : res with e1 | batches
    · constructor
      · intro e he
        simp [runSqlMutate, hg]
      · intro bs hbs
        simp [runSqlMutate, hg] at hbs
    · constructor
      · intro e he
        simp [runSqlMutate, hg] at he
      · intro bs hbs
        have hbs2 : batches = bs := by
          simpa [runSqlMutate, hg] using hbs
        subst hbs2
        exact ⟨old, rfl, by simp [runSqlMutate, hg, Catalog.getTable_add_self]⟩

theorem runSql_mut_branch (fe : Frontend)
    (hashOrd : List (GroupKey × List Nat) → List (GroupKey × List Nat))
    (db : Catalog) (sql : String) (name : ObjectName) (stmt : Stmt)
    (hp : fe.parse sql = .ok stmt)
    (hstmt : stmt = .update name ∨ stmt = .insert name ∨ stmt = .delete name)
    (bs : List RecordBatch)
    (hok : (runSql fe hashOrd db sql).1 = .ok bs) :
    ∃ old, db.getTable (nameConvert name) = .ok old ∧
      ((runSql fe hashOrd db sql).2).getTable (nameConvert name) =
        .ok ⟨old.schema, bs⟩ := by
  rcases hstmt with rfl | rfl | rfl
  · rcases hsp : fe.statementToPlan db (Stmt.update name) with e1 | lp
    · exfalso
      simp [runSql, hp, hsp] at hok
    rcases hcp : fe.createPhysicalPlan (Optimizer.mkDefault.optimize lp)
      with e2 | pp
    · exfalso
      simp [runSql, hp, hsp, hcp] at hok
    have h2 : runSql fe hashOrd db sql =
        runSqlMutate db name (pp.executeWith hashOrd) (pp.executeWith hashOrd) := by
      simp [runSql, hp, hsp, hcp]
    rw [h2] at hok ⊢
    exact (runSqlMutate_cases db name (pp.executeWith hashOrd)).2 bs hok
  · rcases hsp : fe.statementToPlan db (Stmt.insert name) with e1 | lp
    · exfalso
      simp [runSql, hp, hsp] at hok
    rcases hcp : fe.createPhysicalPlan (Optimizer.mkDefault.optimize lp)
      with e2 | pp
    · exfalso
      simp [runSql, hp, hsp, hcp] at hok
    have h2 : runSql fe hashOrd db sql =
        runSqlMutate db name (pp.executeWith hashOrd) (pp.executeWith hashOrd) := by
      simp [runSql, hp, hsp, hcp]
    rw [h2] at hok ⊢
    exact (runSqlMutate_cases db name (pp.executeWith hashOrd)).2 bs hok
  · rcases hsp : fe.statementToPlan db (Stmt.delete name) with e1 | lp
    · exfalso
      simp [runSql, hp, hsp] at hok
    rcases hcp : fe.createPhysicalPlan (Optimizer.mkDefault.optimize lp)
      with e2 | pp
    · exfalso
      simp [runSql, hp, hsp, hcp] at hok
    have h2 : runSql fe hashOrd db sql =
        runSqlMutate db name (pp.executeWith hashOrd) (pp.executeWith hashOrd) := by
      simp [runSql, hp, hsp, hcp]
    rw [h2] at hok ⊢
    exact (runSqlMutate_cases db name (pp.executeWith hashOrd)).2 bs hok

/-- C3: for mutating statements through `run_sql`, a failure of parsing,
planning or physical execution leaves the catalog mapping unchanged; a
successful UPDATE/INSERT/DELETE replaces the entry of the target name by a
source with the old schema and the executed batches; a successful DROP makes
`get_table` fail with `NoSuchTable` on every dropped name; a successful
CREATE TABLE installs an empty-batch source under the target name.  The
hypothesis `hexec` records that the physical plans produced for CREATE TABLE
and DROP statements execute successfully (`CreateTablePlan::execute` returns
`Ok(vec![])` and a DROP plans to a table scan, whose `CsvTable::scan` is
infallible). -/
theorem runSql_catalog_spec (fe : Frontend)
    (hashOrd : List (GroupKey × List Nat) → List (GroupKey × List Nat))
    (db : Catalog) (sql : String)
    (hexec : ∀ stmt lp pp,
      fe.parse sql = .ok stmt →
      ((∃ name, stmt = .createTable name) ∨ (∃ names, stmt = .drop names)) →
      fe.statementToPlan db stmt = .ok lp →
      fe.createPhysicalPlan (Optimizer.mkDefault.optimize lp) = .ok pp →
      ∃ bs, pp.executeWith hashOrd = .ok bs) :
    (∀ e, (runSql fe hashOrd db sql).1 = .error e →
      (runSql fe hashOrd db sql).2 = db) ∧
    (∀ name bs,
      (fe.parse sql = .ok (.update name) ∨ fe.parse sql = .ok (.insert name) ∨
        fe.parse sql = .ok (.delete name)) →
      (runSql fe hashOrd db sql).1 = .ok bs →
      ∃ old, db.getTable (nameConvert name) = .ok old ∧
        ((runSql fe hashOrd db sql).2).getTable (nameConvert name) =
          .ok ⟨old.schema, bs⟩) ∧
    (∀ names bs, fe.parse sql = .ok (.drop names) →
      (runSql fe hashOrd db sql).1 = .ok bs →
      ∀ n ∈ names, ∃ msg,
        ((runSql fe hashOrd db sql).2).getTable (nameConvert n) =
          .error (.noSuchTable msg)) ∧
    (∀ name bs, fe.parse sql = .ok (.createTable name) →
      (runSql fe hashOrd db sql).1 = .ok bs →
      ∃ sch, ((runSql fe hashOrd db sql).2).getTable (nameConvert name) =
        .ok ⟨sch, []⟩) := by
  refine ⟨?_, ?_, ?_, ?_⟩
  · intro e he
    rcases hp : fe.parse sql with e0 | stmt
    · simp [runSql, hp]
    rcases hsp : fe.statementToPlan db stmt with e1 | lp
    · simp [runSql, hp, hsp]
    rcases hcp : fe.createPhysicalPlan (Optimizer.mkDefault.optimize lp)
      with e2 | pp
    · simp [runSql, hp, hsp, hcp]
    cases stmt with
    | query => simp [runSql, hp, hsp, hcp]
    | createTable name =>
      obtain ⟨bs, hbs⟩ := hexec _ _ _ hp (Or.inl ⟨name, rfl⟩) hsp hcp
      simp [runSql, hp, hsp, hcp, hbs] at he
    | drop names =>
      obtain ⟨bs, hbs⟩ := hexec _ _ _ hp (Or.inr ⟨names, rfl⟩) hsp hcp
      simp [runSql, hp, hsp, hcp, hbs] at he
    | update tableName =>
      have h2 : runSql fe hashOrd db sql =
          runSqlMutate db tableName (pp.executeWith hashOrd)
            (pp.executeWith hashOrd) := by
        simp [runSql, hp, hsp, hcp]
      rw [h2] at he ⊢
      exact (runSqlMutate_cases db tableName (pp.executeWith hashOrd)).1 e he
    | insert tableName =>
      have h2 : runSql fe hashOrd db sql =
          runSqlMutate db tableName (pp.executeWith hashOrd)
            (pp.executeWith hashOrd) := by
        simp [runSql, hp, hsp, hcp]
      rw [h2] at he ⊢
      exact (runSqlMutate_cases db tableName (pp.executeWith hashOrd)).1 e he
    | delete tableName =>
      have h2 : runSql fe hashOrd db sql =
          runSqlMutate db tableName (pp.executeWith hashOrd)
            (pp.executeWith hashOrd) := by
        simp [runSql, hp, hsp, hcp]
      rw [h2] at he ⊢
      exact (runSqlMutate_cases db tableName (pp.executeWith hashOrd)).1 e he
    | otherStmt => simp [runSql, hp, hsp, hcp]
  · intro name bs hn hok
    rcases hn with hn | hn | hn
    · exact runSql_mut_branch fe hashOrd db sql name _ hn (Or.inl rfl) bs hok
    · exact runSql_mut_branch fe hashOrd db sql name _ hn (Or.inr (Or.inl rfl)) bs hok
    · exact runSql_mut_branch fe hashOrd db sql name _ hn (Or.inr (Or.inr rfl)) bs hok
  · intro names bs hn hok n hmem
    rcases hsp : fe.statementToPlan db (.drop names) with e1 | lp
    · exfalso
      simp [runSql, hn, hsp] at hok
    rcases hcp : fe.createPhysicalPlan (Optimizer.mkDefault.optimize lp)
      with e2 | pp
    · exfalso
      simp [runSql, hn, hsp, hcp] at hok
    refine ⟨"No table name: " ++ nameConvert n, ?_⟩
    have h2 : (runSql fe hashOrd db sql).2 =
        names.foldl (fun c m => c.removeTable (nameConvert m)) db := by
      simp [runSql, hn, hsp, hcp]
    rw [h2]
    simp only [Catalog.getTable]
    rw [removeAll_none names db (nameConvert n)
      (Or.inl (List.mem_map_of_mem _ hmem))]
  · intro name bs hn hok
    rcases hsp : fe.statementToPlan db (.createTable name) with e1 | lp
    · exfalso
      simp [runSql, hn, hsp] at hok
    rcases hcp : fe.createPhysicalPlan (Optimizer.mkDefault.optimize lp)
      with e2 | pp
    · exfalso
      simp [runSql, hn, hsp, hcp] at hok
    refine ⟨pp.schema, ?_⟩
    have h2 : (runSql fe hashOrd db sql).2 =
        db.addNewTable (nameConvert name) ⟨pp.schema, []⟩ := by
      simp [runSql, hn, hsp, hcp]
    rw [h2]
    exact Catalog.getTable_add_self _ _ _

/-- Witness for C3: a successful UPDATE through `run_sql` replaces the entry
of table `t` by a source with the old schema and the executed batches. -/
theorem runSql_catalog_spec_witness :
    ∃ old, demoCatalog.getTable (nameConvert [⟨"t", some 'q'⟩]) = .ok old ∧
      ((runSql demoFrontend id demoCatalog "u").2).getTable
        (nameConvert [⟨"t", some 'q'⟩]) = .ok ⟨old.schema, []⟩ := by
  have h := runSql_catalog_spec demoFrontend id demoCatalog "u"
    (by
      intro stmt lp pp hp hk hsp hcp
      have hs : stmt = .update [⟨"t", some 'q'⟩] := by
        have h0 : (Except.ok (Stmt.update [⟨"t", some 'q'⟩]) :
            Except ErrorCode Stmt) = .ok stmt := hp
        injection h0 with h1
        exact h1.symm
      subst hs
      rcases hk with ⟨nm, hnm⟩ | ⟨nms, hnm⟩ <;> cases hnm)
  exact h.2.1 [⟨"t", some 'q'⟩] [] (Or.inl rfl) rfl

/-- C4 failing input: the Selection operator evaluates the predicate only on
the first input batch and reuses the Boolean array for every batch, so the
row of the second batch is emitted although the predicate evaluates to false
on that row's own values. -/
theorem selection_first_batch_reuse :
    selPlanDemo.executeWith id =
      .ok [⟨[⟨"p", .boolean, false⟩], [.boolean [some true]]⟩,
           ⟨[⟨"p", .boolean, false⟩], [.boolean [some false]]⟩] ∧
    (PhysicalExpr.column ⟨none, some 0⟩).evaluate
        ⟨[⟨"p", .boolean, false⟩], [.boolean [some false]]⟩ =
      .ok (.array (.boolean [some false])) := by
  exact ⟨by decide, by decide⟩

/-! Lemmas for the UPDATE operator (claim C5). -/

theorem exceptMapM_ok {α β : Type} {f : α → Except ErrorCode β} :
    ∀ {xs : List α} {ys : List β}, xs.mapM f = .ok ys →
      ys.length = xs.length ∧
      ∀ i, ∀ hi : i < xs.length, ∀ hy : i < ys.length,
        f (xs.get ⟨i, hi⟩) = .ok (ys.get ⟨i, hy⟩) := by
  intro xs
  induction xs with
  | nil =>
    intro ys h
    have h2 : (Except.ok ([] : List β) : Except ErrorCode (List β)) = .ok ys := h
    injection h2 with h3
    subst h3
    exact ⟨rfl, fun i hi => by cases hi⟩
  | cons x rest ih =>
    intro ys h
    rw [List.mapM_cons] at h
    rcases hx : f x with e | y
    · rw [hx] at h
      simp [exceptErrBind] at h
    · rw [hx] at h
      rcases hr : rest.mapM f with e | ys0
      · rw [hr] at h
        simp [exceptOkBind, exceptErrBind] at h
      · rw [hr] at h
        have hys : ys = y :: ys0 := by
          simpa [exceptOkBind] using h.symm
        subst hys
        obtain ⟨hlen, hpt⟩ := ih hr
        refine ⟨by simp [hlen], ?_⟩
        intro i hi hy
        cases i with
        | zero => simpa using hx
        | succ j =>
          have hj : j < rest.length := by simpa using hi
          have hj2 : j < ys0.length := by simpa using hy
          simpa using hpt j hj hj2

theorem RecordBatch.tryNew_ok {s : List Field} {cols : List ArrayCol}
    {b : RecordBatch} (h : RecordBatch.tryNew s cols = .ok b) :
    b.schema = s ∧ b.columns = cols := by
  unfold RecordBatch.tryNew at h
  split at h
  · cases h
  · split at h
    · cases h
    · split at h
      · cases h
      · split at h
        · cases h
        · cases h
          exact ⟨rfl, rfl⟩

theorem rowsToUpdate_mem (pred : List (Option Bool)) (j : Nat) :
    j ∈ rowsToUpdate pred ↔ pred[j]? = some (some true) := by
  unfold rowsToUpdate
  rw [List.mem_filterMap]
  constructor
  · rintro ⟨⟨i, v⟩, hmem, hv⟩
    by_cases hvt : v = some true
    · subst hvt
      simp at hv
      subst hv
      exact List.mk_mem_enum_iff_getElem?.mp hmem
    · simp [hvt] at hv
  · intro hj
    exact ⟨(j, some true), List.mk_mem_enum_iff_getElem?.mpr hj, by simp⟩

theorem updRows_length {α : Type} (rows : List Nat) (lit : Option α)
    (vs : List (Option α)) : (updRows rows lit vs).length = vs.length := by
  simp [updRows]

theorem updRows_getElem {α : Type} (rows : List Nat) (lit : Option α)
    (vs : List (Option α)) (j : Nat) (hj : j < vs.length) :
    (updRows rows lit vs).get ⟨j, by simpa [updRows_length] using hj⟩ =
      if rows.contains j then lit else vs[j] := by
  simp [updRows, List.get_eq_getElem]

theorem updEntries_getD {α : Type} (g : α → CellVal) (rows : List Nat)
    (lit : Option α) (vs : List (Option α)) (j : Nat) (hj : j < vs.length) :
    ((updRows rows lit vs).map (fun v => v.map g)).getD j none =
      if rows.contains j then lit.map g
      else (vs.map (fun v => v.map g)).getD j none := by
  rw [List.getD_eq_getElem _ _ (by simpa [updRows_length] using hj),
    List.getD_eq_getElem _ _ (by simpa using hj)]
  rw [List.getElem_map, List.getElem_map]
  have := updRows_getElem rows lit vs j hj
  rw [List.get_eq_getElem] at this
  rw [this]
  split <;> rfl

/-- Behaviour of `update_column_with_value` on success: the column keeps its
length and type; rows in the update set take the literal cell, the others
keep their original cell. -/
theorem updateColumnWithValue_ok {col : ArrayCol} {v : SqlValue}
    {rows : List Nat} {col2 : ArrayCol}
    (h : updateColumnWithValue col (.value v) rows = .ok col2) :
    col2.length = col.length ∧ col2.dataType = col.dataType ∧
    ∀ j, j < col.length →
      col2.entries.getD j none =
        if rows.contains j then litCell v
        else col.entries.getD j none := by
  cases v with
  | number hasDot ival fval =>
    cases hasDot with
    | true =>
      cases col <;> simp [updateColumnWithValue] at h
      case float64 vs =>
        subst h
        refine ⟨by simp [ArrayCol.length, updRows_length], rfl, ?_⟩
        intro j hj
        simpa [ArrayCol.entries, litCell] using
          updEntries_getD CellVal.vRat rows (some fval) vs j hj
    | false =>
      cases col <;> simp [updateColumnWithValue] at h
      case int64 vs =>
        subst h
        refine ⟨by simp [ArrayCol.length, updRows_length], rfl, ?_⟩
        intro j hj
        simpa [ArrayCol.entries, litCell] using
          updEntries_getD CellVal.vInt rows (some ival) vs j hj
  | singleQuotedString s =>
    cases col <;> simp [updateColumnWithValue] at h
    case utf8 vs =>
      subst h
      refine ⟨by simp [ArrayCol.length, updRows_length], rfl, ?_⟩
      intro j hj
      simpa [ArrayCol.entries, litCell] using
        updEntries_getD CellVal.vStr rows (some s) vs j hj
  | boolean bv =>
    cases col <;> simp [updateColumnWithValue] at h
    case boolean vs =>
      subst h
      refine ⟨by simp [ArrayCol.length, updRows_length], rfl, ?_⟩
      intro j hj
      simpa [ArrayCol.entries, litCell] using
        updEntries_getD CellVal.vBool rows (some bv) vs j hj
  | null =>
    cases col <;> simp [updateColumnWithValue] at h
    case utf8 vs =>
      subst h
      refine ⟨by simp [ArrayCol.length, updRows_length], rfl, ?_⟩
      intro j hj
      simpa [ArrayCol.entries, litCell] using
        updEntries_getD CellVal.vStr rows none vs j hj
  | otherValue => simp [updateColumnWithValue] at h

theorem applyAssignmentsCol_no_match {assignments : List Assignment}
    {fname : String} (col : ArrayCol) (rows : List Nat)
    (h : ∀ a ∈ assignments, a.id.value ≠ fname) :
    applyAssignmentsCol assignments fname col rows = .ok col := by
  induction assignments generalizing col with
  | nil => rfl
  | cons a rest ih =>
    unfold applyAssignmentsCol
    rw [List.foldlM_cons, if_neg (h a (by simp))]
    have h2 := ih col (fun x hx => h x (by simp [hx]))
    unfold applyAssignmentsCol at h2
    calc ((pure col : Except ErrorCode ArrayCol) >>= fun c =>
            rest.foldlM (fun c a =>
              if a.id.value = fname then updateColumnWithValue c a.value rows
              else pure c) c)
        = rest.foldlM (fun c a =>
            if a.id.value = fname then updateColumnWithValue c a.value rows
            else pure c) col := by rfl
      _ = .ok col := h2

theorem applyAssignmentsCol_match {assignments : List Assignment}
    {fname : String} {a : Assignment} (col : ArrayCol) (rows : List Nat)
    (ha : a ∈ assignments) (haf : a.id.value = fname)
    (hnd : (assignments.map (fun x => x.id.value)).Nodup) :
    applyAssignmentsCol assignments fname col rows =
      updateColumnWithValue col a.value rows := by
  induction assignments generalizing col with
  | nil => cases ha
  | cons a0 rest ih =>
    have hnd2 : (∀ x ∈ rest, x.id.value ≠ a0.id.value) ∧
        (rest.map (fun x => x.id.value)).Nodup := by
      simpa using hnd
    rcases List.mem_cons.mp ha with rfl | hmem
    · unfold applyAssignmentsCol
      rw [List.foldlM_cons, if_pos haf]
      have hrest : ∀ x ∈ rest, x.id.value ≠ fname := by
        intro x hx heq
        exact hnd2.1 x hx (heq.trans haf.symm)
      rcases hu : updateColumnWithValue col a.value rows with e | c2
      · rw [exceptErrBind]
      · rw [exceptOkBind]
        exact applyAssignmentsCol_no_match c2 rows hrest
    · have h0 : a0.id.value ≠ fname := by
        intro heq
        exact hnd2.1 a hmem (haf.trans heq.symm)
      unfold applyAssignmentsCol
      rw [List.foldlM_cons, if_neg h0]
      have h2 := ih col hmem hnd2.2
      unfold applyAssignmentsCol at h2
      calc ((pure col : Except ErrorCode ArrayCol) >>= fun c =>
              rest.foldlM (fun c a =>
                if a.id.value = fname then updateColumnWithValue c a.value rows
                else pure c) c)
          = rest.foldlM (fun c a =>
              if a.id.value = fname then updateColumnWithValue c a.value rows
              else pure c) col := by rfl
        _ = updateColumnWithValue col a.value rows := h2

theorem updateColumnWithValue_ok_length {col : ArrayCol} {val : AssignExpr}
    {rows : List Nat} {col2 : ArrayCol}
    (h : updateColumnWithValue col val rows = .ok col2) :
    col2.length = col.length ∧ col2.dataType = col.dataType := by
  cases val with
  | value v => exact ⟨(updateColumnWithValue_ok h).1, (updateColumnWithValue_ok h).2.1⟩
  | otherExpr => simp [updateColumnWithValue] at h

theorem applyAssignmentsCol_ok_length {assignments : List Assignment}
    {fname : String} {col : ArrayCol} {rows : List Nat} {col2 : ArrayCol}
    (h : applyAssignmentsCol assignments fname col rows = .ok col2) :
    col2.length = col.length ∧ col2.dataType = col.dataType := by
  induction assignments generalizing col with
  | nil =>
    have h2 : (Except.ok col : Except ErrorCode ArrayCol) = .ok col2 := h
    injection h2 with h3
    rw [h3]
    exact ⟨rfl, rfl⟩
  | cons a rest ih =>
    unfold applyAssignmentsCol at h
    rw [List.foldlM_cons] at h
    by_cases hf : a.id.value = fname
    · rw [if_pos hf] at h
      rcases hu : updateColumnWithValue col a.value rows with e | c1
      · rw [hu, exceptErrBind] at h
        cases h
      · rw [hu, exceptOkBind] at h
        have h1 := updateColumnWithValue_ok_length hu
        have h2 := @ih c1 h
        exact ⟨h2.1.trans h1.1, h2.2.trans h1.2⟩
    · rw [if_neg hf] at h
      exact @ih col h

theorem applyAssignments_ok {assignments : List Assignment} {b : RecordBatch}
    {rows : List Nat} {b2 : RecordBatch}
    (h : applyAssignments assignments b rows = .ok b2) :
    b2.schema = b.schema ∧ b2.columns.length = b.columns.length ∧
    ∀ i, ∀ hi : i < b.columns.length, ∃ hi2 : i < b2.columns.length, ∃ f,
      b.schema[i]? = some f ∧
      applyAssignmentsCol assignments f.name (b.columns.get ⟨i, hi⟩) rows =
        .ok (b2.columns.get ⟨i, hi2⟩) := by
  unfold applyAssignments at h
  rcases hm : b.columns.enum.mapM (fun p =>
      match b.schema.get? p.1 with
      | some f => applyAssignmentsCol assignments f.name p.2 rows
      | none => (.error (.rtPanic "schema field index out of bounds") :
          Except ErrorCode ArrayCol)) with e | cols
  · rw [hm, exceptErrBind] at h
    cases h
  · rw [hm, exceptOkBind] at h
    obtain ⟨hsch, hcols⟩ := RecordBatch.tryNew_ok h
    subst hcols
    obtain ⟨hlen, hpt⟩ := exceptMapM_ok hm
    have hlen2 : b2.columns.length = b.columns.length := by
      rw [hlen, List.enum_length]
    refine ⟨hsch, hlen2, ?_⟩
    intro i hi
    refine ⟨by rw [hlen2]; exact hi, ?_⟩
    have hie : i < b.columns.enum.length := by simpa [List.enum_length] using hi
    have hic : i < b2.columns.length := by rw [hlen]; exact hie
    have hp := hpt i hie hic
    have henum : b.columns.enum.get ⟨i, hie⟩ = (i, b.columns.get ⟨i, hi⟩) := by
      simp [List.get_eq_getElem, List.getElem_enum]
    rw [henum] at hp
    rcases hs : b.schema.get? i with _ | f
    · rw [hs] at hp
      cases hp
    · rw [hs] at hp
      refine ⟨f, ?_, ?_⟩
      · simpa [← List.get?_eq_getElem?] using hs
      · exact hp

/-- C5: `UpdatePlan::execute` evaluates its condition per batch and, per
assignment with a distinct column name, writes the literal exactly at the
rows where the condition is valid and true, keeping every other cell, every
column not named by an assignment, the row count, the column count and the
schema of each batch unchanged.  The second conjunct identifies the
batch-level loop with the Update operator's `execute`. -/
theorem updatePlan_execute_spec (cond : PhysicalExpr)
    (assignments : List Assignment) (bs out : List RecordBatch)
    (hnd : (assignments.map (fun a => a.id.value)).Nodup)
    (h : updateBatches cond assignments bs = .ok out) :
    out.length = bs.length ∧
    (∀ (p : PPlan) ord ibs, p.executeWith ord = .ok ibs →
      (PPlan.update p cond assignments).executeWith ord =
        updateBatches cond assignments ibs) ∧
    ∀ k, ∀ hk : k < bs.length, ∃ hk2 : k < out.length, ∃ cv pred,
      cond.evaluate (bs.get ⟨k, hk⟩) = .ok cv ∧
      cv.intoArray.asBoolean = .ok pred ∧
      (out.get ⟨k, hk2⟩).schema = (bs.get ⟨k, hk⟩).schema ∧
      (out.get ⟨k, hk2⟩).columns.length = (bs.get ⟨k, hk⟩).columns.length ∧
      ∀ i, ∀ hi : i < (bs.get ⟨k, hk⟩).columns.length,
        ∃ hi2 : i < (out.get ⟨k, hk2⟩).columns.length, ∃ f,
          (bs.get ⟨k, hk⟩).schema[i]? = some f ∧
          ((out.get ⟨k, hk2⟩).columns.get ⟨i, hi2⟩).length =
            ((bs.get ⟨k, hk⟩).columns.get ⟨i, hi⟩).length ∧
          ((out.get ⟨k, hk2⟩).columns.get ⟨i, hi2⟩).dataType =
            ((bs.get ⟨k, hk⟩).columns.get ⟨i, hi⟩).dataType ∧
          ((∀ a ∈ assignments, a.id.value ≠ f.name) →
            (out.get ⟨k, hk2⟩).columns.get ⟨i, hi2⟩ =
              (bs.get ⟨k, hk⟩).columns.get ⟨i, hi⟩) ∧
          (∀ a ∈ assignments, a.id.value = f.name → ∃ v, a.value = .value v ∧
            ∀ j, j < ((bs.get ⟨k, hk⟩).columns.get ⟨i, hi⟩).length →
              ((out.get ⟨k, hk2⟩).columns.get ⟨i, hi2⟩).entries.getD j none =
                if pred[j]? = some (some true) then litCell v
                else ((bs.get ⟨k, hk⟩).columns.get ⟨i, hi⟩).entries.getD j none) := by
  unfold updateBatches at h
  obtain ⟨hlen, hpt⟩ := exceptMapM_ok h
  refine ⟨hlen, ?_, ?_⟩
  · intro p ord ibs hin
    show (p.executeWith ord >>= fun x => updateBatches cond assignments x) = _
    rw [hin, exceptOkBind]
  · intro k hk
    refine ⟨by rw [hlen]; exact hk, ?_⟩
    have hp := hpt k hk (by rw [hlen]; exact hk)
    rcases hev : cond.evaluate (bs.get ⟨k, hk⟩) with e | cv
    · rw [hev, exceptErrBind] at hp
      cases hp
    · rw [hev, exceptOkBind] at hp
      rcases hpr : cv.intoArray.asBoolean with e | pred
      · rw [hpr, exceptErrBind] at hp
        cases hp
      · rw [hpr, exceptOkBind] at hp
        refine ⟨cv, pred, rfl, hpr, ?_⟩
        obtain ⟨hsch, hclen, hcols⟩ := applyAssignments_ok hp
        refine ⟨hsch, hclen, ?_⟩
        intro i hi
        obtain ⟨hi2, f, hf, hcol⟩ := hcols i hi
        refine ⟨hi2, f, hf, ?_, ?_, ?_, ?_⟩
        · exact (applyAssignmentsCol_ok_length hcol).1
        · exact (applyAssignmentsCol_ok_length hcol).2
        · intro hno
          have h2 := applyAssignmentsCol_no_match
            ((bs.get ⟨k, hk⟩).columns.get ⟨i, hi⟩) (rowsToUpdate pred) hno
          rw [h2] at hcol
          injection hcol with h3
          exact h3.symm
        · intro a ha haf
          have h2 := applyAssignmentsCol_match
            ((bs.get ⟨k, hk⟩).columns.get ⟨i, hi⟩) (rowsToUpdate pred)
            ha haf hnd
          rw [h2] at hcol
          cases hav : a.value with
          | otherExpr =>
            rw [hav] at hcol
            simp [updateColumnWithValue] at hcol
          | value v =>
            refine ⟨v, rfl, ?_⟩
            rw [hav] at hcol
            obtain ⟨hl, hd, hent⟩ := updateColumnWithValue_ok hcol
            intro j hj
            rw [hent j hj]
            refine if_congr ?_ rfl rfl
            constructor
            · intro hc
              exact (rowsToUpdate_mem pred j).mp (List.elem_iff.mp hc)
            · intro hc
              exact List.elem_iff.mpr ((rowsToUpdate_mem pred j).mpr hc)

/-- Witness for C5: an UPDATE setting column `a` to 9 where the predicate
column is true. -/
theorem updatePlan_execute_spec_witness :
    updateBatches (.literal (.boolean (some true)))
        [⟨⟨"a", none⟩, .value (.number false 9 9)⟩] [demoBatch] =
      .ok [⟨[⟨"a", .int64, false⟩], [.int64 [some 9, some 9, some 9]]⟩] ∧
    ([⟨[⟨"a", .int64, false⟩],
        [.int64 [some 9, some 9, some 9]]⟩] : List RecordBatch).length =
      [demoBatch].length := by
  refine ⟨by decide, ?_⟩
  exact (updatePlan_execute_spec (.literal (.boolean (some true)))
    [⟨⟨"a", none⟩, .value (.number false 9 9)⟩] [demoBatch]
    [⟨[⟨"a", .int64, false⟩], [.int64 [some 9, some 9, some 9]]⟩]
    (by decide) (by decide)).1

/-! Well-formedness lemmas for batch construction and concatenation. -/

theorem RecordBatch.tryNew_ok_wf {s : List Field} {cols : List ArrayCol}
    {b : RecordBatch} (h : RecordBatch.tryNew s cols = .ok b) : b.wf := by
  obtain ⟨hsch, hcols⟩ := RecordBatch.tryNew_ok h
  unfold RecordBatch.tryNew at h
  split at h
  next h1 => cases h
  next h1 =>
    split at h
    · cases h
    next c0 rest =>
      split at h
      next h2 => cases h
      next h2 =>
        split at h
        next h3 => cases h
        next h3 =>
          injection h with hb
          subst hb
          simp only [not_not] at h1
          have h2f : ∀ c ∈ rest, c.length = c0.length := by
            intro c hc
            by_contra hne
            exact h2 (List.any_eq_true.mpr ⟨c, hc, by simpa using hne⟩)
          have h3f : ∀ p ∈ s.zip (c0 :: rest), p.2.dataType = p.1.dataType := by
            intro p hp
            by_contra hne
            exact h3 (List.any_eq_true.mpr ⟨p, hp, by simpa using hne⟩)
          refine ⟨by simp, by simpa using h1.symm, ?_, ?_⟩
          · intro c hc
            rcases List.mem_cons.mp hc with rfl | hc
            · rfl
            · exact h2f c hc
          · intro i hi
            simp only [RecordBatch.wf] at *
            have his : i < s.length := by
              simpa [h1] using hi
            have hiz : i < (s.zip (c0 :: rest)).length := by
              simp only [List.length_zip]
              omega
            have hz := h3f ((s.zip (c0 :: rest)).get ⟨i, hiz⟩)
              (List.get_mem _ _ _)
            rw [List.get_eq_getElem, List.getElem_zip] at hz
            rw [List.getD_eq_getElem _ _ hi, List.getD_eq_getElem _ _ his]
            simpa using hz

theorem ScalarValue.intoArray_length (v : ScalarValue) (n : Nat) :
    (v.intoArray n).length = n := by
  cases v <;> simp [ScalarValue.intoArray, ArrayCol.length]

theorem ArrayCol.append_spec {a b : ArrayCol} (h : a.dataType = b.dataType) :
    (a.append b).dataType = a.dataType ∧
    (a.append b).length = a.length + b.length := by
  cases a <;> cases b <;> simp [ArrayCol.dataType] at h <;>
    simp [ArrayCol.append, ArrayCol.dataType, ArrayCol.length]

theorem concatColAt_ok {bs : List RecordBatch} {i : Nat} {dt : DataType}
    {c : ArrayCol} (h : concatColAt bs i dt = .ok c)
    (hrep : (DataType.emptyCol dt).dataType = dt)
    (hwf : ∀ b ∈ bs, b.wf) (hcols : ∀ b ∈ bs, i < b.columns.length) :
    c.dataType = dt ∧ c.length = sumRows bs := by
  unfold concatColAt at h
  suffices haux : ∀ (l : List RecordBatch) (acc : ArrayCol),
      acc.dataType = dt → (∀ b ∈ l, b.wf) → (∀ b ∈ l, i < b.columns.length) →
      ∀ {c2 : ArrayCol},
      l.foldlM (fun acc b =>
        match b.columns.get? i with
        | some cb =>
          if cb.dataType = dt then (Except.ok (acc.append cb) :
            Except ErrorCode ArrayCol)
          else Except.error (ErrorCode.arrowError "column type mismatch in concat")
        | none => Except.error (ErrorCode.arrowError "missing column in concat"))
        acc = Except.ok c2 →
      c2.dataType = dt ∧ c2.length = acc.length + sumRows l by
    have := haux bs dt.emptyCol hrep hwf hcols h
    rcases this with ⟨h1, h2⟩
    refine ⟨h1, ?_⟩
    rw [h2]
    have : (DataType.emptyCol dt).length = 0 := by
      cases dt <;> simp [DataType.emptyCol, ArrayCol.length]
    omega
  intro l
  induction l with
  | nil =>
    intro acc hacc _ _ c2 h2
    have h3 : (Except.ok acc : Except ErrorCode ArrayCol) = .ok c2 := h2
    injection h3 with h4
    subst h4
    simp [sumRows, hacc]
  | cons b rest ih =>
    intro acc hacc hwf2 hcols2 c2 h2
    rw [List.foldlM_cons] at h2
    rcases hg : b.columns.get? i with _ | cb
    · rw [hg] at h2
      rw [exceptErrBind] at h2
      cases h2
    · rw [hg] at h2
      have hstep : (match some cb with
          | some cb =>
            if cb.dataType = dt then (Except.ok (acc.append cb) :
              Except ErrorCode ArrayCol)
            else Except.error (ErrorCode.arrowError "column type mismatch in concat")
          | none => Except.error (ErrorCode.arrowError "missing column in concat"))
          = if cb.dataType = dt then (Except.ok (acc.append cb) :
              Except ErrorCode ArrayCol)
            else Except.error
              (ErrorCode.arrowError "column type mismatch in concat") := rfl
      rw [hstep] at h2
      by_cases hdt : cb.dataType = dt
      · rw [if_pos hdt, exceptOkBind] at h2
        have happ := @ArrayCol.append_spec acc cb (by rw [hacc, hdt])
        have hres := ih (acc.append cb) (happ.1.trans hacc)
          (fun x hx => hwf2 x (by simp [hx]))
          (fun x hx => hcols2 x (by simp [hx])) h2
        refine ⟨hres.1, ?_⟩
        rw [hres.2, happ.2]
        have hcb : cb.length = b.numRows := by
          have hbm := hwf2 b (by simp)
          exact hbm.2.2.1 cb (by
            exact List.get?_mem hg)
        rw [hcb]
        simp [sumRows]
        omega
      · rw [if_neg hdt] at h2
        rw [exceptErrBind] at h2
        cases h2

theorem concatBatches_ok {schema : List Field} {bs : List RecordBatch}
    {r : RecordBatch} (h : concatBatches schema bs = .ok r) :
    r.schema = schema ∧ r.columns.length = schema.length ∧
    ∀ i, ∀ hi : i < schema.length, ∃ hi2 : i < r.columns.length,
      concatColAt bs i (schema.get ⟨i, hi⟩).dataType =
        .ok (r.columns.get ⟨i, hi2⟩) := by
  unfold concatBatches at h
  rcases hm : schema.enum.mapM (fun p => concatColAt bs p.1 p.2.dataType)
    with e | cols
  · rw [hm, exceptErrBind] at h
    cases h
  · rw [hm, exceptOkBind] at h
    injection h with h2
    subst h2
    obtain ⟨hlen, hpt⟩ := exceptMapM_ok hm
    refine ⟨rfl, by simpa [List.enum_length] using hlen, ?_⟩
    intro i hi
    have hie : i < schema.enum.length := by simpa [List.enum_length] using hi
    have hic : i < cols.length := by rw [hlen]; exact hie
    refine ⟨hic, ?_⟩
    have hp := hpt i hie hic
    have henum : schema.enum.get ⟨i, hie⟩ = (i, schema.get ⟨i, hi⟩) := by
      simp [List.get_eq_getElem, List.getElem_enum]
    rw [henum] at hp
    exact hp

theorem exceptMapM_ok_mem {α β : Type} {f : α → Except ErrorCode β} :
    ∀ {xs : List α} {ys : List β}, xs.mapM f = .ok ys →
      ∀ y ∈ ys, ∃ x ∈ xs, f x = .ok y := by
  intro xs
  induction xs with
  | nil =>
    intro ys h y hy
    have h2 : (Except.ok ([] : List β) : Except ErrorCode (List β)) = .ok ys := h
    injection h2 with h3
    subst h3
    cases hy
  | cons x rest ih =>
    intro ys h y hy
    rw [List.mapM_cons] at h
    rcases hx : f x with e | y0
    · rw [hx, exceptErrBind] at h
      cases h
    · rw [hx] at h
      rcases hr : rest.mapM f with e | ys0
      · rw [hr] at h
        simp [exceptOkBind, exceptErrBind] at h
      · rw [hr] at h
        have hys : ys = y0 :: ys0 := by
          simpa [exceptOkBind] using h.symm
        subst hys
        rcases List.mem_cons.mp hy with rfl | hy2
        · exact ⟨x, by simp, hx⟩
        · obtain ⟨x2, hx2, hfx2⟩ := ih hr y hy2
          exact ⟨x2, by simp [hx2], hfx2⟩

theorem limitBatches_mem_spec {S : List Field} (n : Nat)
    (bs : List RecordBatch) (h : ∀ b ∈ bs, b.schema = S ∧ b.wf) :
    ∀ x ∈ limitBatches n bs, x.schema = S ∧ x.wf := by
  induction bs generalizing n with
  | nil => simp [limitBatches]
  | cons b rest ih =>
    have hb := h b (by simp)
    have hrest : ∀ x ∈ rest, x.schema = S ∧ x.wf := fun x hx => h x (by simp [hx])
    intro x hx
    rw [limitBatches] at hx
    by_cases h0 : n = 0
    · simp [h0] at hx
    · rw [if_neg h0] at hx
      by_cases hle : b.numRows ≤ n
      · rw [if_pos hle] at hx
        rcases List.mem_cons.mp hx with rfl | hx2
        · exact hb
        · exact ih _ hrest x hx2
      · rw [if_neg hle] at hx
        have hx2 : x = b.slice 0 n := by simpa using hx
        subst hx2
        exact ⟨hb.1, RecordBatch.wf_slice hb.2 _ _⟩

theorem offsetBatches_mem_spec {S : List Field} (n : Nat)
    (bs : List RecordBatch) (h : ∀ b ∈ bs, b.schema = S ∧ b.wf) :
    ∀ x ∈ offsetBatches n bs, x.schema = S ∧ x.wf := by
  induction bs generalizing n with
  | nil => simp [offsetBatches]
  | cons b rest ih =>
    have hb := h b (by simp)
    have hrest : ∀ x ∈ rest, x.schema = S ∧ x.wf := fun x hx => h x (by simp [hx])
    intro x hx
    rw [offsetBatches] at hx
    by_cases h0 : n = 0
    · rw [if_pos h0] at hx
      rcases List.mem_cons.mp hx with rfl | hx2
      · exact hb
      · exact ih 0 hrest x hx2
    · rw [if_neg h0] at hx
      by_cases hle : b.numRows ≤ n
      · rw [if_pos hle] at hx
        exact ih _ hrest x hx
      · rw [if_neg hle] at hx
        rcases List.mem_cons.mp hx with rfl | hx2
        · exact ⟨hb.1, RecordBatch.wf_slice hb.2 _ _⟩
        · exact ih 0 hrest x hx2

theorem concatBatches_props {schema : List Field} {bs : List RecordBatch}
    {r : RecordBatch} (h : concatBatches schema bs = .ok r)
    (hrep : ∀ f ∈ schema, (DataType.emptyCol f.dataType).dataType = f.dataType)
    (hbs : ∀ b ∈ bs, b.schema = schema ∧ b.wf) :
    r.schema = schema ∧ (schema ≠ [] → r.numRows = sumRows bs ∧ r.wf) := by
  obtain ⟨hsch, hclen, hcols⟩ := concatBatches_ok h
  have hcolfact : ∀ i, ∀ hi : i < schema.length, ∃ hi2 : i < r.columns.length,
      (r.columns.get ⟨i, hi2⟩).dataType = (schema.get ⟨i, hi⟩).dataType ∧
      (r.columns.get ⟨i, hi2⟩).length = sumRows bs := by
    intro i hi
    obtain ⟨hi2, hcc⟩ := hcols i hi
    have hfact := concatColAt_ok hcc (hrep _ (List.get_mem _ _ _))
      (fun b hb => (hbs b hb).2)
      (fun b hb => by
        have hb2 := hbs b hb
        have hlenb : b.columns.length = b.schema.length := hb2.2.2.1
        rw [hlenb, hb2.1]
        exact hi)
    exact ⟨hi2, hfact.1, hfact.2⟩
  refine ⟨hsch, ?_⟩
  intro hne
  have h0 : 0 < schema.length := by
    cases schema with
    | nil => exact absurd rfl hne
    | cons f rest => simp
  obtain ⟨h02, hdt0, hlen0⟩ := hcolfact 0 h0
  have hnum : r.numRows = sumRows bs := by
    rcases hc : r.columns with _ | ⟨c0, crest⟩
    · rw [hc] at h02
      cases h02
    · have : r.columns.get ⟨0, h02⟩ = c0 := by
        simp [hc]
      rw [this] at hlen0
      simp [RecordBatch.numRows, hc, hlen0]
  refine ⟨hnum, ?_, ?_, ?_, ?_⟩
  · intro hcn
    rw [hcn] at hclen
    simp at hclen
    rw [← hclen] at h0
    cases h0
  · rw [hclen, hsch]
  · intro c hc
    obtain ⟨j, hcj⟩ := List.mem_iff_get.mp hc
    have hl := j.isLt
    have hj2 : (j : Nat) < schema.length := by omega
    obtain ⟨hj3, _, hlenj⟩ := hcolfact j hj2
    rw [hnum, ← hcj]
    have hfin : (⟨(j : Nat), hj3⟩ : Fin r.columns.length) = j := Fin.ext rfl
    rw [hfin] at hlenj
    exact hlenj
  · intro i hi
    have hi2 : i < schema.length := by rw [← hclen]; exact hi
    obtain ⟨hi3, hdt, _⟩ := hcolfact i hi2
    rw [List.getD_eq_getElem _ _ hi, List.getD_eq_getElem _ _ (by
      rw [hsch]; exact hi2)]
    have hdt2 : r.columns[i] = r.columns.get ⟨i, hi3⟩ := rfl
    rw [hdt2, hdt]
    simp [hsch, List.get_eq_getElem]

theorem aggDataField_ok_type {ce : ColumnExpr} {sch : NaiveSchema}
    {fn : String} {dt : DataType} {f : NaiveField}
    (h : aggDataField ce sch fn dt = .ok f) : f.dataType = dt := by
  unfold aggDataField at h
  split at h
  next name _ =>
    rcases hg : sch.fieldWithUnqualifiedName name with e | f0
    · rw [hg, exceptErrBind] at h
      cases h
    · rw [hg, exceptOkBind] at h
      injection h with h2
      rw [← h2]
  next =>
    split at h
    next =>
      split at h
      next =>
        injection h with h2
        rw [← h2]
      next => cases h
    next => cases h

theorem AggOp.dataField_ok_type {op : AggOp} {sch : NaiveSchema}
    {f : NaiveField} (h : op.dataField sch = .ok f) :
    f.dataType = .float64 ∨ f.dataType = .uint64 := by
  cases op with
  | sum acc ce => exact Or.inl (aggDataField_ok_type h)
  | avg acc cnt ce => exact Or.inl (aggDataField_ok_type h)
  | count cnt ce => exact Or.inr (aggDataField_ok_type h)

theorem aggOutSchema_rep {ops : List AggOp} {sch : NaiveSchema}
    {flds : List NaiveField}
    (h : ops.mapM (fun op => op.dataField sch) = .ok flds) :
    ∀ f ∈ flds.map NaiveField.toField,
      (DataType.emptyCol f.dataType).dataType = f.dataType := by
  intro f hf
  obtain ⟨nf, hnf, hrfl⟩ := List.mem_map.mp hf
  obtain ⟨op, hop, hopf⟩ := exceptMapM_ok_mem h nf hnf
  rcases AggOp.dataField_ok_type hopf with h1 | h1 <;>
    rw [← hrfl] <;>
    simp [NaiveField.toField, h1, DataType.emptyCol, ArrayCol.dataType]

theorem aggGroupsGo_ok {outSchema : List Field} {single : RecordBatch} :
    ∀ {ops : List AggOp} {groups : List (GroupKey × List Nat)}
      {out : List RecordBatch},
    aggGroupsGo outSchema single ops groups = .ok out →
    out.length = groups.length ∧
    ∀ b ∈ out, b.schema = outSchema ∧ b.wf ∧ b.numRows = 1 := by
  intro ops groups
  induction groups generalizing ops with
  | nil =>
    intro out h
    have h2 : (Except.ok ([] : List RecordBatch) :
        Except ErrorCode (List RecordBatch)) = .ok out := h
    injection h2 with h3
    subst h3
    exact ⟨rfl, by simp⟩
  | cons g rest ih =>
    intro out h
    obtain ⟨k, idxs⟩ := g
    rw [aggGroupsGo] at h
    rcases hf : idxs.foldlM
        (fun os i => os.mapM fun op => op.update single i) ops with e | ops1
    · rw [hf, exceptErrBind] at h
      cases h
    · rw [hf, exceptOkBind] at h
      dsimp only at h
      rcases hb : RecordBatch.tryNew outSchema
          (ops1.map fun op => op.evaluate.intoArray 1) with e | b
      · rw [hb, exceptErrBind] at h
        cases h
      · rw [hb, exceptOkBind] at h
        rcases hrest : aggGroupsGo outSchema single
            (ops1.map AggOp.clearState) rest with e | bs0
        · rw [hrest, exceptErrBind] at h
          cases h
        · rw [hrest, exceptOkBind] at h
          have hout : out = b :: bs0 := by
            have h2 : (Except.ok (b :: bs0) :
                Except ErrorCode (List RecordBatch)) = .ok out := h
            injection h2 with h3
            exact h3.symm
          subst hout
          obtain ⟨hlen0, hmem0⟩ := ih hrest
          refine ⟨by simp [hlen0], ?_⟩
          intro x hx
          rcases List.mem_cons.mp hx with rfl | hx2
          · obtain ⟨hsch, hcols⟩ := RecordBatch.tryNew_ok hb
            have hwfb := RecordBatch.tryNew_ok_wf hb
            refine ⟨hsch, hwfb, ?_⟩
            have hall : ∀ c ∈ x.columns, c.length = 1 := by
              intro c hc
              rw [hcols] at hc
              obtain ⟨op, _, hopc⟩ := List.mem_map.mp hc
              rw [← hopc]
              exact ScalarValue.intoArray_length _ 1
            rcases hcc : x.columns with _ | ⟨c0, crest⟩
            · exact absurd hcc hwfb.1
            · have := hall c0 (by rw [hcc]; simp)
              simp [RecordBatch.numRows, hcc, this]
          · exact hmem0 x hx2

/-- C1: amended schema invariant — every batch an operator's `execute` returns
is well-formed (all columns of one batch have the same length) and carries
`expectedExecSchema`, which equals the operator's `schema()` except in two
cases: the aggregate, whose output schema is derived from the aggregators'
`data_field` results rather than the input schema stored at creation, and a
projection whose stored schema has no fields, which passes its input batches
through unchanged, so they carry the input's expected schema rather than the
empty one. -/
theorem executeWith_schema_wf
    (ord : List (GroupKey × List Nat) → List (GroupKey × List Nat)) :
    ∀ (p : PPlan) (out : List RecordBatch),
    p.sourcesWf → p.aggrOpsNonempty → p.executeWith ord = .ok out →
    ∀ b ∈ out, b.schema = expectedExecSchema p ∧ b.wf := by
  intro p
  induction p with
  | scan src proj =>
    intro out hsrc hops h b hb
    have h2 : (Except.ok src.batches :
        Except ErrorCode (List RecordBatch)) = .ok out := h
    injection h2 with h3
    subst h3
    exact hsrc b hb
  | selection inp e ih =>
    intro out hsrc hops h b hb
    simp only [PPlan.executeWith] at h
    rcases hin : inp.executeWith ord with er | ibs
    · rw [hin, exceptErrBind] at h
      cases h
    · rw [hin, exceptOkBind] at h
      rcases ibs with _ | ⟨b0, rest⟩
      · simp only [selectionExecuteBatches] at h
        cases h
      · simp only [selectionExecuteBatches] at h
        rcases hcv : e.evaluate b0 with er | cv
        · rw [hcv, exceptErrBind] at h
          cases h
        · rw [hcv, exceptOkBind] at h
          rcases hpred : cv.intoArray.asBoolean with er | pred
          · rw [hpred, exceptErrBind] at h
            cases h
          · rw [hpred, exceptOkBind] at h
            obtain ⟨x, hx, hxb⟩ := exceptMapM_ok_mem h b hb
            rcases hcols : x.columns.mapM (buildArrayByPredicate pred)
                with er | cols
            · rw [hcols, exceptErrBind] at hxb
              cases hxb
            · rw [hcols, exceptOkBind] at hxb
              exact ⟨(RecordBatch.tryNew_ok hxb).1, RecordBatch.tryNew_ok_wf hxb⟩
  | projection inp sch exprs ih =>
    intro out hsrc hops h b hb
    simp only [PPlan.executeWith] at h
    rcases hin : inp.executeWith ord with er | ibs
    · rw [hin, exceptErrBind] at h
      cases h
    · rw [hin, exceptOkBind] at h
      rw [projectionExecuteBatches] at h
      by_cases hemp : sch.fields.isEmpty = true
      · rw [if_pos hemp] at h
        injection h with h2
        subst h2
        have hres := ih ibs hsrc hops hin b hb
        simp only [expectedExecSchema, if_pos hemp]
        exact hres
      · rw [if_neg hemp] at h
        obtain ⟨x, hx, hxb⟩ := exceptMapM_ok_mem h b hb
        rcases hcols : exprs.mapM (fun e2 => e2.evaluate x) with er | cols
        · rw [hcols, exceptErrBind] at hxb
          cases hxb
        · rw [hcols, exceptOkBind] at hxb
          simp only [expectedExecSchema, if_neg hemp]
          exact ⟨(RecordBatch.tryNew_ok hxb).1, RecordBatch.tryNew_ok_wf hxb⟩
  | limit inp n ih =>
    intro out hsrc hops h b hb
    simp only [PPlan.executeWith] at h
    rcases hin : inp.executeWith ord with er | ibs
    · rw [hin] at h
      simp only [Except.map] at h
      cases h
    · rw [hin] at h
      simp only [Except.map] at h
      injection h with h2
      subst h2
      exact limitBatches_mem_spec n ibs (ih ibs hsrc hops hin) b hb
  | offset inp n ih =>
    intro out hsrc hops h b hb
    simp only [PPlan.executeWith] at h
    rcases hin : inp.executeWith ord with er | ibs
    · rw [hin] at h
      simp only [Except.map] at h
      cases h
    · rw [hin] at h
      simp only [Except.map] at h
      injection h with h2
      subst h2
      exact offsetBatches_mem_spec n ibs (ih ibs hsrc hops hin) b hb
  | update inp cond asg ih =>
    intro out hsrc hops h b hb
    simp only [PPlan.executeWith] at h
    rcases hin : inp.executeWith ord with er | ibs
    · rw [hin, exceptErrBind] at h
      cases h
    · rw [hin, exceptOkBind] at h
      rw [updateBatches] at h
      obtain ⟨x, hx, hxb⟩ := exceptMapM_ok_mem h b hb
      rcases hcv : cond.evaluate x with er | cv
      · rw [hcv, exceptErrBind] at hxb
        cases hxb
      · rw [hcv, exceptOkBind] at hxb
        rcases hpred : cv.intoArray.asBoolean with er | pred
        · rw [hpred, exceptErrBind] at hxb
          cases hxb
        · rw [hpred, exceptOkBind] at hxb
          rw [applyAssignments] at hxb
          rcases hcols : x.columns.enum.mapM (fun p =>
              match x.schema.get? p.1 with
              | some f => applyAssignmentsCol asg f.name p.2 (rowsToUpdate pred)
              | none => .error (.rtPanic "schema field index out of bounds"))
              with er | cols
          · rw [hcols, exceptErrBind] at hxb
            cases hxb
          · rw [hcols, exceptOkBind] at hxb
            have hxfacts := ih ibs hsrc hops hin x hx
            exact ⟨((RecordBatch.tryNew_ok hxb).1).trans hxfacts.1,
              RecordBatch.tryNew_ok_wf hxb⟩
  | createTable sch =>
    intro out hsrc hops h b hb
    have h2 : (Except.ok ([] : List RecordBatch) :
        Except ErrorCode (List RecordBatch)) = .ok out := h
    injection h2 with h3
    subst h3
    cases hb
  | aggregate g ops inp sch ih =>
    intro out hsrc hops h b hb
    have hops' : ops ≠ [] ∧ inp.aggrOpsNonempty := hops
    simp only [PPlan.executeWith] at h
    rcases hfld : ops.mapM (fun op => op.dataField sch) with er | flds
    · rw [hfld, exceptErrBind] at h
      cases h
    · rw [hfld, exceptOkBind] at h
      have hexp : expectedExecSchema (.aggregate g ops inp sch) =
          flds.map NaiveField.toField := by
        simp only [expectedExecSchema, hfld]
      rcases hin : inp.executeWith ord with er | ibs
      · rw [hin, exceptErrBind] at h
        cases h
      · rw [hin, exceptOkBind] at h
        by_cases hg : g.isEmpty = true
        · rw [if_pos hg] at h
          rcases hfold : ibs.foldlM
              (fun os b2 => os.mapM fun op => op.updateBatch b2) ops
              with er | ops1
          · rw [hfold, exceptErrBind] at h
            cases h
          · rw [hfold, exceptOkBind] at h
            rcases hnew : RecordBatch.tryNew (flds.map NaiveField.toField)
                (ops1.map fun op => op.evaluate.intoArray 1) with er | bb
            · rw [hnew, exceptErrBind] at h
              cases h
            · rw [hnew, exceptOkBind] at h
              have h2 : (Except.ok [bb] :
                  Except ErrorCode (List RecordBatch)) = .ok out := h
              injection h2 with h3
              subst h3
              obtain rfl := List.mem_singleton.mp hb
              rw [hexp]
              exact ⟨(RecordBatch.tryNew_ok hnew).1, RecordBatch.tryNew_ok_wf hnew⟩
        · rw [if_neg hg] at h
          rcases hcat : concatBatches inp.schema.toSchema ibs with er | single
          · rw [hcat, exceptErrBind] at h
            cases h
          · rw [hcat, exceptOkBind] at h
            rcases g with _ | ⟨g0, grest⟩
            · exact absurd rfl hg
            · dsimp only at h
              rcases hcv : g0.evaluate single with er | cv
              · rw [hcv, exceptErrBind] at h
                cases h
              · rw [hcv, exceptOkBind] at h
                rcases hkeys : groupKeysOf cv.intoArray with er | keys
                · rw [hkeys, exceptErrBind] at h
                  cases h
                · rw [hkeys, exceptOkBind] at h
                  rcases hgo : aggGroupsGo (flds.map NaiveField.toField) single
                      ops (ord (groupIdxs keys)) with er | out2
                  · rw [hgo, exceptErrBind] at h
                    cases h
                  · rw [hgo, exceptOkBind] at h
                    rcases hcat2 : concatBatches (flds.map NaiveField.toField)
                        out2 with er | single2
                    · rw [hcat2, exceptErrBind] at h
                      cases h
                    · rw [hcat2, exceptOkBind] at h
                      have h2 : (Except.ok [single2] :
                          Except ErrorCode (List RecordBatch)) = .ok out := h
                      injection h2 with h3
                      subst h3
                      obtain rfl := List.mem_singleton.mp hb
                      have hbs2 : ∀ x ∈ out2,
                          x.schema = flds.map NaiveField.toField ∧ x.wf := by
                        intro x hx
                        obtain ⟨hxs, hxw, _⟩ := (aggGroupsGo_ok hgo).2 x hx
                        exact ⟨hxs, hxw⟩
                      have hprops := concatBatches_props hcat2
                        (aggOutSchema_rep hfld) hbs2
                      have hne : (flds.map NaiveField.toField :
                          List Field) ≠ [] := by
                        have hlen := (exceptMapM_ok hfld).1
                        cases flds with
                        | nil =>
                          cases ops with
                          | nil => exact absurd rfl hops'.1
                          | cons o os => simp at hlen
                        | cons f fs => simp
                      rw [hexp]
                      exact ⟨hprops.1, (hprops.2 hne).2⟩

/-- C1: counterexample for the literal claim — executing `aggCexPlan` (an
aggregate built by `PhysicalAggregatePlan::create`) returns a batch whose
schema is not the plan's `schema()`. -/
theorem aggregate_schema_cex :
    aggCexPlan.executeWith id = .ok [aggCexOut] ∧
    aggCexOut.schema ≠ aggCexPlan.schema.toSchema := by
  constructor
  · decide
  · decide

/-- C1 witness: the amended invariant applied to a concrete scan and its
single output batch. -/
theorem executeWith_schema_wf_witness :
    (⟨[⟨"a", .int64, false⟩], [.int64 [some 1]]⟩ : RecordBatch).schema =
      expectedExecSchema (.scan aggWitSource none) ∧
    (⟨[⟨"a", .int64, false⟩], [.int64 [some 1]]⟩ : RecordBatch).wf :=
  executeWith_schema_wf id (.scan aggWitSource none) aggWitSource.batches
    (by show ∀ b ∈ aggWitSource.batches,
          b.schema = aggWitSource.schema.toSchema ∧ b.wf
        decide)
    trivial rfl
    ⟨[⟨"a", .int64, false⟩], [.int64 [some 1]]⟩ (by decide)

/-! Lemmas on the group map of `group_by_datatype` (claim C2). -/

theorem insertGroup_fst_mem {gs : List (GroupKey × List Nat)} {k : GroupKey}
    (i : Nat) (h : k ∈ gs.map Prod.fst) :
    (insertGroup gs k i).map Prod.fst = gs.map Prod.fst := by
  induction gs with
  | nil => cases h
  | cons g rest ih =>
    obtain ⟨k0, is⟩ := g
    rw [insertGroup]
    by_cases hk : k0 = k
    · rw [if_pos hk]
      simp
    · rw [if_neg hk]
      simp only [List.map_cons]
      rw [ih ?_]
      simp only [List.map_cons] at h
      rcases List.mem_cons.mp h with hx | hx
      · exact absurd hx.symm hk
      · exact hx

theorem insertGroup_fst_not_mem {gs : List (GroupKey × List Nat)}
    {k : GroupKey} (i : Nat) (h : k ∉ gs.map Prod.fst) :
    (insertGroup gs k i).map Prod.fst = gs.map Prod.fst ++ [k] := by
  induction gs with
  | nil => rfl
  | cons g rest ih =>
    obtain ⟨k0, is⟩ := g
    rw [insertGroup]
    by_cases hk : k0 = k
    · exact absurd (by simp [hk]) h
    · rw [if_neg hk]
      simp only [List.map_cons, List.cons_append]
      rw [ih (fun hc => h (by simp [hc]))]

theorem groupFold_keys (l : List (Nat × Option GroupKey)) :
    ∀ init : List (GroupKey × List Nat),
    (init.map Prod.fst).Nodup →
    ((l.foldl groupStep init).map Prod.fst).Nodup ∧
    ((l.foldl groupStep init).map Prod.fst).toFinset =
      (init.map Prod.fst).toFinset ∪ (l.filterMap Prod.snd).toFinset := by
  induction l with
  | nil =>
    intro init hnd
    refine ⟨hnd, ?_⟩
    simp
  | cons p rest ih =>
    intro init hnd
    rcases hp : p.2 with _ | v
    · have hstep : groupStep init p = init := by rw [groupStep, hp]
      rw [List.foldl_cons, hstep]
      obtain ⟨h1, h2⟩ := ih init hnd
      refine ⟨h1, ?_⟩
      rw [h2]
      simp [List.filterMap_cons, hp]
    · have hstep : groupStep init p = insertGroup init v p.1 := by
        rw [groupStep, hp]
      rw [List.foldl_cons, hstep]
      by_cases hv : v ∈ init.map Prod.fst
      · have hkeys := @insertGroup_fst_mem init v p.1 hv
        obtain ⟨h1, h2⟩ := ih (insertGroup init v p.1) (by rw [hkeys]; exact hnd)
        refine ⟨h1, ?_⟩
        rw [h2, hkeys]
        ext x
        simp only [Finset.mem_union, List.mem_toFinset, List.filterMap_cons,
          hp, List.mem_cons]
        constructor
        · rintro (hx | hx)
          · exact Or.inl hx
          · exact Or.inr (Or.inr hx)
        · rintro (hx | rfl | hx)
          · exact Or.inl hx
          · exact Or.inl hv
          · exact Or.inr hx
      · have hkeys := @insertGroup_fst_not_mem init v p.1 hv
        obtain ⟨h1, h2⟩ := ih (insertGroup init v p.1)
          (by
            rw [hkeys]
            refine List.Nodup.append hnd (List.nodup_singleton v) ?_
            intro a ha hb
            rw [List.mem_singleton] at hb
            subst hb
            exact hv ha)
        refine ⟨h1, ?_⟩
        rw [h2, hkeys]
        ext x
        simp only [Finset.mem_union, List.mem_toFinset, List.filterMap_cons,
          hp, List.mem_cons, List.mem_append, List.not_mem_nil, or_false]
        constructor
        · rintro ((hx | rfl) | hx)
          · exact Or.inl hx
          · exact Or.inr (Or.inl rfl)
          · exact Or.inr (Or.inr hx)
        · rintro (hx | rfl | hx)
          · exact Or.inl (Or.inl hx)
          · exact Or.inl (Or.inr rfl)
          · exact Or.inr hx

theorem groupIdxs_length (vals : List (Option GroupKey)) :
    (groupIdxs vals).length = (vals.filterMap id).toFinset.card := by
  obtain ⟨hnd, hset⟩ := groupFold_keys vals.enum [] (by simp)
  have hsnd : vals.enum.filterMap Prod.snd = vals.filterMap id := by
    conv_rhs => rw [← List.enum_map_snd vals, List.filterMap_map]
    rfl
  have hlen : (groupIdxs vals).length =
      ((vals.enum.foldl groupStep []).map Prod.fst).length := by
    rw [groupIdxs, List.length_map]
  rw [hlen, ← List.toFinset_card_of_nodup hnd, hset, hsnd]
  simp

theorem sumRows_ones : ∀ {bs : List RecordBatch},
    (∀ b ∈ bs, b.numRows = 1) → sumRows bs = bs.length := by
  intro bs
  induction bs with
  | nil => intro h; rfl
  | cons b rest ih =>
    intro h
    have hb := h b (by simp)
    have hr := ih (fun x hx => h x (by simp [hx]))
    simp only [sumRows, List.map_cons, List.sum_cons, hb, List.length_cons]
    simp only [sumRows] at hr
    omega

/-- C2 (amended): with a non-empty GROUP BY list, under every iteration order
of the group hash map (modelled as an arbitrary permutation applied to the
first-seen group list), the aggregate emits one batch whose total row count
is the number of distinct non-null group-key values; the row order follows
the hash map's unspecified iteration order. -/
theorem aggregate_groupby_rowcount
    (ord : List (GroupKey × List Nat) → List (GroupKey × List Nat))
    (hperm : ∀ l, (ord l).Perm l)
    (g0 : PhysicalExpr) (grest : List PhysicalExpr) (ops : List AggOp)
    (inp : PPlan) (sch : NaiveSchema) (out : List RecordBatch)
    (hne : ops ≠ [])
    (flds : List NaiveField)
    (hfld : ops.mapM (fun op => op.dataField sch) = .ok flds)
    (ibs : List RecordBatch) (hin : inp.executeWith ord = .ok ibs)
    (single : RecordBatch)
    (hcat : concatBatches inp.schema.toSchema ibs = .ok single)
    (cv : ColumnValue) (hcv : g0.evaluate single = .ok cv)
    (keys : List (Option GroupKey))
    (hkeys : groupKeysOf cv.intoArray = .ok keys)
    (h : (PPlan.aggregate (g0 :: grest) ops inp sch).executeWith ord = .ok out) :
    out.length = 1 ∧ sumRows out = (keys.filterMap id).toFinset.card := by
  simp only [PPlan.executeWith] at h
  rw [hfld, exceptOkBind, hin, exceptOkBind] at h
  rw [if_neg (by simp)] at h
  rw [hcat, exceptOkBind] at h
  rw [hcv, exceptOkBind, hkeys, exceptOkBind] at h
  rcases hgo : aggGroupsGo (flds.map NaiveField.toField) single ops
      (ord (groupIdxs keys)) with er | out2
  · rw [hgo, exceptErrBind] at h
    cases h
  · rw [hgo, exceptOkBind] at h
    rcases hcat2 : concatBatches (flds.map NaiveField.toField) out2
        with er | single2
    · rw [hcat2, exceptErrBind] at h
      cases h
    · rw [hcat2, exceptOkBind] at h
      have h2 : (Except.ok [single2] :
          Except ErrorCode (List RecordBatch)) = .ok out := h
      injection h2 with h3
      subst h3
      obtain ⟨hglen, hgmem⟩ := aggGroupsGo_ok hgo
      have hbs2 : ∀ x ∈ out2, x.schema = flds.map NaiveField.toField ∧ x.wf :=
        fun x hx => ⟨(hgmem x hx).1, (hgmem x hx).2.1⟩
      have hnefld : (flds.map NaiveField.toField : List Field) ≠ [] := by
        have hlen := (exceptMapM_ok hfld).1
        cases flds with
        | nil =>
          cases ops with
          | nil => exact absurd rfl hne
          | cons o os => simp at hlen
        | cons f fs => simp
      have hprops := concatBatches_props hcat2 (aggOutSchema_rep hfld) hbs2
      refine ⟨rfl, ?_⟩
      have hrows : sumRows [single2] = single2.numRows := by
        simp [sumRows]
      rw [hrows, (hprops.2 hnefld).1,
        sumRows_ones (fun b hb => (hgmem b hb).2.2), hglen,
        (hperm (groupIdxs keys)).length_eq, groupIdxs_length]

/-- C2 witness: counting per group over the key column 1, 2, 2 with the
first-seen iteration order. -/
theorem aggregate_groupby_rowcount_witness :
    ([⟨[⟨"count(k)", .uint64, false⟩], [.uint64 [some 1, some 2]]⟩] :
      List RecordBatch).length = 1 ∧
    sumRows [⟨[⟨"count(k)", .uint64, false⟩], [.uint64 [some 1, some 2]]⟩] =
      (([some (GroupKey.gInt 1), some (.gInt 2), some (.gInt 2)] :
        List (Option GroupKey)).filterMap id).toFinset.card :=
  aggregate_groupby_rowcount id (fun l => List.Perm.refl l)
    (.column ⟨none, some 0⟩) [] [.count 0 ⟨none, some 0⟩]
    (.scan aggGroupSource none) aggGroupSource.schema
    [⟨[⟨"count(k)", .uint64, false⟩], [.uint64 [some 1, some 2]]⟩]
    (by decide)
    [⟨none, "count(k)", .uint64, false⟩] (by decide)
    aggGroupSource.batches rfl
    ⟨[⟨"k", .int64, false⟩], [.int64 [some 1, some 2, some 2]]⟩ (by decide)
    (.array (.int64 [some 1, some 2, some 2])) (by decide)
    [some (.gInt 1), some (.gInt 2), some (.gInt 2)] (by decide)
    (by decide)

/-- C2: counterexample to first-seen order — reversal is a permissible hash
map iteration order (it permutes the first-seen group list), and under it the
aggregate returns a different batch list than under first-seen order, so the
emitted group order is not determined to be first-seen. -/
theorem aggregate_groupby_order_cex :
    (∀ l : List (GroupKey × List Nat), (List.reverse l).Perm l) ∧
    aggGroupPlan.executeWith List.reverse ≠ aggGroupPlan.executeWith id := by
  exact ⟨fun l => List.reverse_perm l, by decide⟩

end SimpleDB
